import Mathlib

/-!
Verification of the core trading library (trading_lib): a shallow embedding of
the data model and the operations of `models.py`, `portfolio/simple.py`,
`order_manager.py`, `matching_engine/matching_engine.py`, `engine.py`,
`performance.py` and `book.py`, together with theorems settling the stated
properties of those operations.

Modelling conventions:
- Python `float` arithmetic is modelled with exact rationals (`ℚ`);
  Python `int` with `ℤ`.  Python floor division `//` is `Int.fdiv`.
- Mutable objects are modelled by explicit state passing.  Where Python
  object identity matters (`id(order)`, `copy.copy`), objects live in an
  explicit heap (a list indexed by references) or carry an explicit
  reference number.
- Exceptions are modelled by returning `Option Err` along with the state
  the object was left in when the exception propagated (Python mutations
  performed before a `raise` persist).
- Validation reasons, which the source formats as strings, are modelled by
  an inductive type with one constructor per distinct source branch.
-/

/-- Order status enumeration, from `models.py` (`OrderStatus`). -/
inductive PyOrderStatus where
  | PENDING
  | FILLED
  | PARTIALLY_FILLED
  | CANCELED
  | FAILED
  | ACTIVE
  deriving DecidableEq, Repr

/-- Signal action enumeration, from `models.py` (`Action`). -/
inductive PyAction where
  | BUY
  | SELL
  | HOLD
  deriving DecidableEq, Repr

/-- A trade order, from `models.py` (`class Order`), with the
`filled_quantity` field that the rest of the code base (engine, gateways,
matching engine, every test) reads and writes on `Order` objects. -/
structure PyOrder where
  symbol : String
  quantity : ℤ
  price : ℚ
  status : PyOrderStatus
  id : Option String := none
  filled_quantity : ℤ := 0
  deriving DecidableEq, Repr

/-- Modelled from the spec: `Order.remaining_quantity` is read by
`order_manager.py` (line 149) but defined nowhere under `src/`; the spec's
data model defines it as `|quantity| − filled_quantity`, which agrees with
every assertion about it in the repository's tests. -/
def PyOrder.remaining_quantity (o : PyOrder) : ℤ :=
  |o.quantity| - o.filled_quantity

/-- Association-list lookup (first match), modelling Python `dict` access. -/
def alookup {κ α : Type} [DecidableEq κ] (l : List (κ × α)) (k : κ) :
    Option α :=
  match l with
  | [] => none
  | (k', v) :: rest => if k' = k then some v else alookup rest k

/-- Association-list update: replace the first binding of `k`, or append a
new binding, modelling Python `dict` assignment. -/
def aset {κ α : Type} [DecidableEq κ] (l : List (κ × α)) (k : κ) (v : α) :
    List (κ × α) :=
  match l with
  | [] => [(k, v)]
  | (k', v') :: rest =>
      if k' = k then (k, v) :: rest else (k', v') :: aset rest k v

/-- Association-list deletion of the first binding of `k`, modelling Python
`del d[k]`. -/
def aerase {κ α : Type} [DecidableEq κ] (l : List (κ × α)) (k : κ) :
    List (κ × α) :=
  match l with
  | [] => []
  | (k', v') :: rest =>
      if k' = k then rest else (k', v') :: aerase rest k

/-- One holding of `SimplePortfolio`: the `{"quantity": ..., "avg_price": ...}`
dictionary of `portfolio/simple.py`. -/
structure Holding where
  quantity : ℤ
  avg_price : ℚ
  deriving DecidableEq, Repr

/-- State of `SimplePortfolio` (`portfolio/simple.py`): cash and the private
holdings dictionary. -/
structure PortfolioState where
  cash : ℚ
  holdings : List (String × Holding)
  deriving DecidableEq, Repr

/-- Errors raised by the portfolio layer. -/
inductive PErr where
  | valueError
  | orderError
  deriving DecidableEq, Repr

/-- `SimplePortfolio.update_cash`: add `amount` to cash, then raise
`ValueError` if the (already mutated) cash is negative. -/
def PortfolioState.update_cash (p : PortfolioState) (amount : ℚ) :
    Option PErr × PortfolioState :=
  let p' := { p with cash := p.cash + amount }
  if p'.cash < 0 then (some PErr.valueError, p') else (none, p')

/-- `SimplePortfolio.add_to_holding`: ensure a (possibly zero) entry exists,
raise `OrderError` if the updated quantity would be negative, delete the
entry at zero, and otherwise update quantity — recomputing the weighted
average price only when buying (`quantity > 0`). -/
def PortfolioState.add_to_holding (p : PortfolioState) (symbol : String)
    (quantity : ℤ) (price : ℚ) : Option PErr × PortfolioState :=
  let hs :=
    match alookup p.holdings symbol with
    | some _ => p.holdings
    | none => aset p.holdings symbol ⟨0, 0⟩
  let h := (alookup hs symbol).getD ⟨0, 0⟩
  let new_quantity := h.quantity + quantity
  if new_quantity < 0 then
    (some PErr.orderError, { p with holdings := hs })
  else if new_quantity = 0 then
    (none, { p with holdings := aerase hs symbol })
  else
    let h' :=
      if quantity > 0 then
        ⟨new_quantity,
          (h.avg_price * (h.quantity : ℚ) + price * (quantity : ℚ)) /
            (new_quantity : ℚ)⟩
      else
        ⟨new_quantity, h.avg_price⟩
    (none, { p with holdings := aset hs symbol h' })

/-- `SimplePortfolio.apply_order`: only `FILLED` orders are applied; cash is
updated first (and the exception from `update_cash` propagates with the cash
mutation in place), then the holding. -/
def PortfolioState.apply_order (p : PortfolioState) (o : PyOrder) :
    Option PErr × PortfolioState :=
  if o.status ≠ PyOrderStatus.FILLED then (some PErr.orderError, p)
  else
    let total_cost := o.price * (o.quantity : ℚ)
    let r := p.update_cash (-total_cost)
    match r.1 with
    | some e => (some e, r.2)
    | none => r.2.add_to_holding o.symbol o.quantity o.price

/-- `SimplePortfolio.get_holding`: read a holding, defaulting to
quantity `0`, average price `0`. -/
def PortfolioState.get_holding (p : PortfolioState) (symbol : String) :
    Holding :=
  (alookup p.holdings symbol).getD ⟨0, 0⟩

/-- `SimplePortfolio.can_execute_order`: buys need cash for the full cost,
sells need at least `|quantity|` held. -/
def PortfolioState.can_execute_order (p : PortfolioState) (o : PyOrder) :
    Bool :=
  let total_cost := o.price * (o.quantity : ℚ)
  if o.quantity > 0 then
    decide (p.cash ≥ total_cost)
  else
    decide ((p.get_holding o.symbol).quantity ≥ |o.quantity|)

instance : Inhabited PyOrder := ⟨⟨"", 0, 0, PyOrderStatus.PENDING, none, 0⟩⟩

/-- Validation outcome reasons; one constructor per distinct string the
source's `OrderManager.validate_order` can produce. -/
inductive VReason where
  | valid
  | insufficient_cash
  | insufficient_holdings
  | rate_limit
  | order_value_limit
  | position_limit
  deriving DecidableEq, Repr

/-- State of `OrderManager` (`order_manager.py`).  Wall-clock instants
(`datetime.now()`) are modelled as rationals counting seconds, supplied
explicitly by callers.  `active_orders` is keyed by the Python object id
of the order (`id(order)`), modelled as a natural number supplied by the
caller, and stores the last known filled quantity. -/
structure OMState where
  max_orders_per_minute : ℕ
  max_order_value : Option ℚ
  max_position_size : Option ℚ
  order_timestamps : List ℚ
  position_values : List (String × ℚ)
  active_orders : List (ℕ × ℤ)
  deriving DecidableEq, Repr

/-- A fresh `OrderManager` with the given caps. -/
def OMState.mk0 (n : ℕ) (mov mps : Option ℚ) : OMState :=
  ⟨n, mov, mps, [], [], []⟩

/-- Append to a `collections.deque` with `maxlen = m`: when the deque is
full the leftmost (oldest) element is dropped. -/
def deque_append (m : ℕ) (s : List ℚ) (t : ℚ) : List ℚ :=
  (s ++ [t]).drop (s.length + 1 - m)

/-- `OrderManager._check_rate_limit`: pop timestamps older than 60 seconds
from the left of the deque (this mutation persists), then test whether the
count is below the cap. -/
def OMState.check_rate_limit (st : OMState) (now : ℚ) : Bool × OMState :=
  let ts := st.order_timestamps.dropWhile (fun x => decide (x < now - 60))
  (decide (ts.length < st.max_orders_per_minute),
    { st with order_timestamps := ts })

/-- Python truthiness of an optional float configuration value: `None` and
`0.0` are falsy (source: `if self.max_order_value:` and
`if self.max_position_size:`). -/
def opt_truthy (v : Option ℚ) : Bool :=
  match v with
  | none => false
  | some x => decide (x ≠ 0)

/-- `OrderManager._check_position_limit`: compare the absolute committed
notional after this order against the cap. -/
def OMState.check_position_limit (st : OMState) (o : PyOrder) (mps : ℚ) :
    Bool :=
  let current_position := (alookup st.position_values o.symbol).getD 0
  let order_value := (o.quantity : ℚ) * o.price
  decide (|current_position + order_value| ≤ mps)

/-- `OrderManager.validate_order`: capital sufficiency, then rate limit
(whose pruning of the timestamp deque persists), then the per-order value
cap, then the position cap. -/
def OMState.validate_order (st : OMState) (p : PortfolioState) (o : PyOrder)
    (now : ℚ) : (Bool × VReason) × OMState :=
  if ¬ p.can_execute_order o then
    ((false,
      if o.quantity > 0 then VReason.insufficient_cash
      else VReason.insufficient_holdings), st)
  else
    let r := st.check_rate_limit now
    if ¬ r.1 then ((false, VReason.rate_limit), r.2)
    else
      let st1 := r.2
      let bad_value :=
        match st1.max_order_value with
        | none => false
        | some mov =>
            opt_truthy (some mov) && decide (|(o.quantity : ℚ) * o.price| > mov)
      if bad_value then ((false, VReason.order_value_limit), st1)
      else
        let bad_position :=
          match st1.max_position_size with
          | none => false
          | some mps =>
              opt_truthy (some mps) && ¬ st1.check_position_limit o mps
        if bad_position then ((false, VReason.position_limit), st1)
        else ((true, VReason.valid), st1)

/-- `OrderManager.record_order`: push the current timestamp onto the bounded
deque, insert the order into `active_orders` with its current filled
quantity, and (for `ACTIVE`/`PENDING` orders) add its notional to the
per-symbol position value. -/
def OMState.record_order (st : OMState) (oid : ℕ) (o : PyOrder) (now : ℚ) :
    OMState :=
  let pv :=
    if o.status = PyOrderStatus.ACTIVE ∨ o.status = PyOrderStatus.PENDING then
      aset st.position_values o.symbol
        ((alookup st.position_values o.symbol).getD 0 +
          (o.quantity : ℚ) * o.price)
    else st.position_values
  { st with
    order_timestamps :=
      deque_append st.max_orders_per_minute st.order_timestamps now,
    active_orders := aset st.active_orders oid o.filled_quantity,
    position_values := pv }

/-- `OrderManager.update_order_fill`: set the order's cumulative filled
quantity, compute the delta against the last known value (unknown orders
count as 0), and update status and tracking; returns
`(new_fill_qty, remaining_qty)` together with the mutated order and state. -/
def OMState.update_order_fill (st : OMState) (oid : ℕ) (o : PyOrder)
    (filled_quantity : ℤ) : (ℤ × ℤ) × PyOrder × OMState :=
  let o1 := { o with filled_quantity := filled_quantity }
  let previous_filled := (alookup st.active_orders oid).getD 0
  let new_fill_qty := filled_quantity - previous_filled
  let remaining_qty := o1.remaining_quantity
  if remaining_qty = 0 then
    ((new_fill_qty, remaining_qty),
      { o1 with status := PyOrderStatus.FILLED },
      { st with active_orders := aerase st.active_orders oid })
  else if filled_quantity > previous_filled then
    ((new_fill_qty, remaining_qty),
      { o1 with status := PyOrderStatus.PARTIALLY_FILLED },
      { st with active_orders := aset st.active_orders oid filled_quantity })
  else
    ((new_fill_qty, remaining_qty), o1,
      { st with
        active_orders :=
          match alookup st.active_orders oid with
          | some _ => aset st.active_orders oid filled_quantity
          | none => st.active_orders })

/-- `OrderManager.remove_order`: drop the order from `active_orders`. -/
def OMState.remove_order (st : OMState) (oid : ℕ) : OMState :=
  { st with active_orders := aerase st.active_orders oid }

/-- A heap of Python `Order` objects: index = object reference.  Mutation of
one object is `List.set` at its reference; `copy.copy` appends a fresh
object with the same field values. -/
abbrev OrderHeap := List PyOrder

/-- State of `MatchingEngine` (`matching_engine/matching_engine.py`).
`orders` is the internal `id → order` map (Python permits a `None` key);
it stores heap references.  `published` records the order references passed
to the order-update callbacks, in order.  The uniform draw `u` of
`_get_random_value` is supplied explicitly (the source's test hook
`set_random_value` does the same). -/
structure MEState where
  cancel_rate : ℚ
  partial_fill_rate : ℚ
  orders : List (Option String × ℕ)
  published : List ℕ
  deriving DecidableEq, Repr

/-- `MatchingEngine.create_unique_id`. -/
def MEState.create_unique_id (st : MEState) : String :=
  "order_" ++ Nat.repr (st.orders.length + 1) ++ "_X"

/-- `MatchingEngine.ensure_order_id`: assign a generated id when the order
has none (the `hasattr` test is always true here since `id` is a field of
`Order`). -/
def MEState.ensure_order_id (st : MEState) (r : ℕ) (h : OrderHeap) :
    OrderHeap :=
  let o := h.getD r default
  if o.id = none then h.set r { o with id := some st.create_unique_id } else h

/-- `MatchingEngine.attempt_to_fill_order`: one uniform draw `u` decides
cancel / partial fill / full fill; partial fills receive Python
`quantity // 3` (floor division of the signed quantity) and full fills the
signed quantity itself; the order is then recorded in the internal map. -/
def MEState.attempt_to_fill_order (st : MEState) (r : ℕ) (h : OrderHeap)
    (u : ℚ) : MEState × OrderHeap :=
  let o := h.getD r default
  let o' :=
    if st.cancel_rate > 0 ∧ u < st.cancel_rate then
      { o with status := PyOrderStatus.CANCELED, filled_quantity := 0 }
    else if st.partial_fill_rate > 0 ∧ u < st.partial_fill_rate + st.cancel_rate then
      { o with status := PyOrderStatus.PARTIALLY_FILLED,
               filled_quantity := Int.fdiv o.quantity 3 }
    else
      { o with status := PyOrderStatus.FILLED, filled_quantity := o.quantity }
  let h' := h.set r o'
  ({ st with orders := aset st.orders o'.id r }, h')

/-- `MatchingEngine.process_order`: shallow-copy the submitted order, give
the copy an id if needed, attempt the fill on the copy, publish the copy to
subscribers and return it. -/
def MEState.process_order (st : MEState) (r : ℕ) (h : OrderHeap) (u : ℚ) :
    ℕ × MEState × OrderHeap :=
  let o := h.getD r default
  let r' := h.length
  let h1 := h ++ [o]
  let h2 := st.ensure_order_id r' h1
  let res := st.attempt_to_fill_order r' h2 u
  (r', { res.1 with published := res.1.published ++ [r'] }, res.2)

/-- A strategy signal `(symbol, quantity, price, action)` as consumed by
`TradingEngine._on_market_data`. -/
structure Signal where
  symbol : String
  quantity : ℤ
  price : ℚ
  action : PyAction
  deriving DecidableEq, Repr

/-- Python truthiness of the `(bool, str)` tuple returned by
`validate_order`: a nonempty tuple is always truthy, regardless of the
boolean inside (source: `if self.order_manager.validate_order(order):` in
`engine.py`). -/
def py_truthy_pair (_ : Bool × VReason) : Bool := true

/-- The signal-to-order loop of `TradingEngine._on_market_data`: for each
non-`HOLD` signal construct a `PENDING` order with zero filled quantity,
call `OrderManager.validate_order` on it, and test the *tuple* result for
truthiness to decide whether to call `Gateway.submit_order`.  Returns the
orders submitted to the gateway and the final order-manager state. -/
def on_market_data (om : OMState) (p : PortfolioState) (now : ℚ)
    (signals : List Signal) : List PyOrder × OMState :=
  signals.foldl
    (fun acc sig =>
      if sig.action = PyAction.HOLD then acc
      else
        let o : PyOrder :=
          ⟨sig.symbol, sig.quantity, sig.price, PyOrderStatus.PENDING, none, 0⟩
        let r := acc.2.validate_order p o now
        if py_truthy_pair r.1 then (acc.1 ++ [o], r.2) else (acc.1, r.2))
    ([], om)

/-- An open position in the tracker, from `performance.py` (`Position`). -/
structure TrackerPosition where
  quantity : ℤ
  avg_entry_price : ℚ
  current_price : ℚ
  deriving DecidableEq, Repr

/-- An executed trade record, from `performance.py` (`Trade`). -/
structure PyTrade where
  timestamp : ℚ
  symbol : String
  quantity : ℤ
  price : ℚ
  side : String
  deriving DecidableEq, Repr

/-- State of `PerformanceTracker` (`performance.py`); only the parts the
position/P&L/drawdown computations touch. -/
structure TrackerState where
  initial_capital : ℚ
  trades : List PyTrade
  positions : List (String × TrackerPosition)
  closed_pnls : List ℚ
  equity_curve : List (ℚ × ℚ)
  deriving DecidableEq, Repr

/-- A fresh tracker with the given initial capital. -/
def TrackerState.mk0 (c : ℚ) : TrackerState := ⟨c, [], [], [], []⟩

/-- `PerformanceTracker._update_position`: create a position on the first
trade of a symbol; on reaching net zero realize P&L (sign flipped for
shorts) and delete the position; same-direction additions recompute the
weighted average entry price. -/
def TrackerState.update_position (tr : TrackerState) (t : PyTrade) :
    TrackerState :=
  match alookup tr.positions t.symbol with
  | none =>
      if t.quantity ≠ 0 then
        let ps := aset tr.positions t.symbol ⟨t.quantity, t.price, t.price⟩
        { tr with positions := ps }
      else tr
  | some pos =>
      let old_quantity := pos.quantity
      let new_quantity := old_quantity + t.quantity
      if new_quantity = 0 then
        let pnl :=
          if old_quantity > 0 then
            (t.price - pos.avg_entry_price) * ((|old_quantity| : ℤ) : ℚ)
          else
            (pos.avg_entry_price - t.price) * ((|old_quantity| : ℤ) : ℚ)
        { tr with
          closed_pnls := tr.closed_pnls ++ [pnl],
          positions := aerase tr.positions t.symbol }
      else
        let pos' :=
          if (old_quantity > 0 ∧ t.quantity > 0) ∨
             (old_quantity < 0 ∧ t.quantity < 0) then
            let total_cost :=
              pos.avg_entry_price * ((|old_quantity| : ℤ) : ℚ) +
                t.price * ((|t.quantity| : ℤ) : ℚ)
            ⟨new_quantity, total_cost / ((|new_quantity| : ℤ) : ℚ), t.price⟩
          else
            ⟨new_quantity, pos.avg_entry_price, t.price⟩
        { tr with positions := aset tr.positions t.symbol pos' }

/-- `PerformanceTracker.record_trade`: append the trade (side derived from
the sign of the quantity) and update the position. -/
def TrackerState.record_trade (tr : TrackerState) (o : PyOrder) (ts : ℚ) :
    TrackerState :=
  let trade : PyTrade :=
    ⟨ts, o.symbol, o.quantity, o.price,
      if o.quantity > 0 then "buy" else "sell"⟩
  ({ tr with trades := tr.trades ++ [trade] }).update_position trade

/-- The loop body of `PerformanceTracker._calculate_drawdown`, threading
the running peak and the best drawdown/percentage found so far. -/
def cd_go (peak maxdd maxpct : ℚ) : List ℚ → ℚ × ℚ
  | [] => (maxdd, maxpct)
  | v :: rest =>
      let peak' := if v > peak then v else peak
      let drawdown := peak' - v
      let drawdown_pct := if peak' > 0 then drawdown / peak' * 100 else 0
      if drawdown > maxdd then cd_go peak' drawdown drawdown_pct rest
      else cd_go peak' maxdd maxpct rest

/-- `PerformanceTracker._calculate_drawdown`: streaming peak tracking over
the recorded equity values, with the peak seeded from `initial_capital`
(an empty curve yields `(0, 0)`, as in the source's early return). -/
def TrackerState.calculate_drawdown (tr : TrackerState) : ℚ × ℚ :=
  cd_go tr.initial_capital 0 0 (tr.equity_curve.map Prod.snd)

/-- A book entry, from `book.py` (`BookOrder`); `dataclass(order=True)`
compares entries lexicographically by `(priority_price, timestamp)`. -/
structure BookOrder where
  priority_price : ℚ
  timestamp : ℚ
  order : PyOrder
  order_id : String
  deriving DecidableEq, Repr

/-- Strict comparison of book entries by `(priority_price, timestamp)`,
the dataclass ordering `heapq` uses. -/
def key_lt (a b : BookOrder) : Bool :=
  decide (a.priority_price < b.priority_price) ||
    (decide (a.priority_price = b.priority_price) &&
      decide (a.timestamp < b.timestamp))

/-- The minimal entry of a heap, by the dataclass ordering; what `heap[0]`
exposes.  Among key ties the earliest-listed entry is kept (the source's
heaps never hold key ties when add timestamps are distinct). -/
def heap_min : List BookOrder → Option BookOrder
  | [] => none
  | b :: rest =>
      match heap_min rest with
      | none => some b
      | some m => if key_lt m b then some m else some b

/-- Fuelled form of the `while` loop of `OrderBook._clean_top`: pop the
heap's minimum while it is a cancelled entry.  Each iteration removes one
element, so fuel `l.length` (as used by `clean_top`) never runs out. -/
def clean_go (cancelled : List String) : ℕ → List BookOrder → List BookOrder
  | 0, l => l
  | fuel + 1, l =>
      match heap_min l with
      | none => l
      | some m =>
          if cancelled.contains m.order_id then
            clean_go cancelled fuel (l.erase m)
          else l

/-- `OrderBook._clean_top`: pop entries from the top of the heap while the
top is cancelled. -/
def clean_top (cancelled : List String) (l : List BookOrder) :
    List BookOrder :=
  clean_go cancelled l.length l

/-- State of `OrderBook` (`book.py`): the two heaps (modelled as lists whose
top is `heap_min`), the id-to-entry map, the lazily-cancelled id set and
the id counter. -/
structure OrderBookState where
  symbol : String
  bids : List BookOrder
  asks : List BookOrder
  orders : List (String × BookOrder)
  cancelled_ids : List String
  total_orders : ℕ
  deriving Repr

/-- An empty book for a symbol. -/
def OrderBookState.mk0 (s : String) : OrderBookState := ⟨s, [], [], [], [], 0⟩

/-- `OrderBook.add_order`: assign the id `symbol_counter`, stamp the entry
with the current wall-clock (supplied explicitly, modelling
`datetime.now()`), and push it on the bid heap (negated price) when the
quantity is positive, on the ask heap otherwise. -/
def OrderBookState.add_order (st : OrderBookState) (o : PyOrder) (ts : ℚ) :
    String × OrderBookState :=
  let order_id := st.symbol ++ "_" ++ Nat.repr st.total_orders
  let st1 := { st with total_orders := st.total_orders + 1 }
  if o.quantity > 0 then
    let bo : BookOrder := ⟨-o.price, ts, o, order_id⟩
    (order_id, { st1 with bids := st1.bids ++ [bo],
                          orders := aset st1.orders order_id bo })
  else
    let bo : BookOrder := ⟨o.price, ts, o, order_id⟩
    (order_id, { st1 with asks := st1.asks ++ [bo],
                          orders := aset st1.orders order_id bo })

/-- `OrderBook.cancel_order`: unknown ids are a no-op returning `False`;
otherwise mark the id cancelled (lazy deletion) and forget the mapping. -/
def OrderBookState.cancel_order (st : OrderBookState) (order_id : String) :
    Bool × OrderBookState :=
  match alookup st.orders order_id with
  | none => (false, st)
  | some _ =>
      (true, { st with cancelled_ids := order_id :: st.cancelled_ids,
                       orders := aerase st.orders order_id })

/-- `OrderBook.get_best_bid`: clean the top of the bid heap (the mutation
persists), then peek, undoing the price negation. -/
def OrderBookState.get_best_bid (st : OrderBookState) :
    Option ℚ × OrderBookState :=
  let bids' := clean_top st.cancelled_ids st.bids
  ((heap_min bids').map (fun b => -b.priority_price),
    { st with bids := bids' })

/-- `OrderBook.get_best_ask`: clean the top of the ask heap, then peek. -/
def OrderBookState.get_best_ask (st : OrderBookState) :
    Option ℚ × OrderBookState :=
  let asks' := clean_top st.cancelled_ids st.asks
  ((heap_min asks').map (fun b => b.priority_price),
    { st with asks := asks' })

/-- A call against the order book: an admission (with its wall-clock stamp)
or a cancellation. -/
inductive BookOp where
  | add (o : PyOrder) (ts : ℚ)
  | cancel (order_id : String)
  deriving Repr

/-- One book call. -/
def book_step (st : OrderBookState) : BookOp → OrderBookState
  | BookOp.add o ts => (st.add_order o ts).2
  | BookOp.cancel order_id => (st.cancel_order order_id).2

/-- An interleaving of `add_order` and `cancel_order` calls. -/
def book_run (st : OrderBookState) (ops : List BookOp) : OrderBookState :=
  ops.foldl book_step st

/-- The live (non-cancelled) entries of a heap. -/
def live_entries (cancelled : List String) (l : List BookOrder) :
    List BookOrder :=
  l.filter (fun b => ¬ cancelled.contains b.order_id)

/-- The wall-clock stamps of the admissions of a call sequence, in order. -/
def add_times : List BookOp → List ℚ
  | [] => []
  | BookOp.add _ ts :: rest => ts :: add_times rest
  | BookOp.cancel _ :: rest => add_times rest

/-- The outcome (status, filled quantity) that the spec's description of
`attempt_to_fill_order` assigns to a draw `u`: cancellation fills nothing,
a partial fill receives `⌊|quantity|/3⌋` but is treated as a full fill when
`|quantity| < 3`, and a full fill receives `|quantity|`. -/
def claim_c3_outcome (cr pfr : ℚ) (q : ℤ) (u : ℚ) : PyOrderStatus × ℤ :=
  if u < cr then (PyOrderStatus.CANCELED, 0)
  else if u < cr + pfr then
    if |q| < 3 then (PyOrderStatus.FILLED, |q|)
    else (PyOrderStatus.PARTIALLY_FILLED, |q| / 3)
  else (PyOrderStatus.FILLED, |q|)

/-- The outcome the source actually computes, written as a three-way split
on the draw: partial fills receive Python `quantity // 3` of the signed
quantity (no small-quantity promotion to a full fill), full fills the
signed quantity itself. -/
def code_c3_outcome (cr pfr : ℚ) (q : ℤ) (u : ℚ) : PyOrderStatus × ℤ :=
  if u < cr then (PyOrderStatus.CANCELED, 0)
  else if u < cr + pfr then (PyOrderStatus.PARTIALLY_FILLED, Int.fdiv q 3)
  else (PyOrderStatus.FILLED, q)

/-- Running maximum drawdown of the spec's formula
`max over t of (max over s ≤ t of v_s) − v_t`, threaded with the peak seen
so far. -/
def spec_dd_from (peak : ℚ) : List ℚ → ℚ
  | [] => 0
  | v :: rest => max (max peak v - v) (spec_dd_from (max peak v) rest)

/-- The claim's drawdown formula: the peak is the running maximum of the
recorded samples themselves (an empty curve has drawdown `0`). -/
def spec_max_drawdown : List ℚ → ℚ
  | [] => 0
  | v :: rest => spec_dd_from v (v :: rest)

/-- Running peak (seeded at `init`) after the sample at index `k`. -/
def peak_at (init : ℚ) (vs : List ℚ) (k : ℕ) : ℚ :=
  (vs.take (k + 1)).foldl max init

/-- Drawdown at sample index `k` against the seeded running peak. -/
def dd_at (init : ℚ) (vs : List ℚ) (k : ℕ) : ℚ :=
  peak_at init vs k - vs.getD k 0

/-- Drawdown percentage at sample index `k`, as the source computes it. -/
def pct_at (init : ℚ) (vs : List ℚ) (k : ℕ) : ℚ :=
  if peak_at init vs k > 0 then dd_at init vs k / peak_at init vs k * 100
  else 0

/-- A sequence of same-symbol `add_to_holding` calls (quantity, price),
applied left to right; the portfolio each call leaves behind is fed to the
next (exceptions cannot occur for the positive-quantity calls the
avg-price law quantifies over). -/
def apply_buys (p : PortfolioState) (symbol : String)
    (buys : List (ℤ × ℚ)) : PortfolioState :=
  buys.foldl (fun acc b => (acc.add_to_holding symbol b.1 b.2).2) p

/-- Total quantity of a buy sequence. -/
def sumQ (buys : List (ℤ × ℚ)) : ℤ := (buys.map Prod.fst).sum

/-- Total cost (price times quantity, summed) of a buy sequence. -/
def sumC (buys : List (ℤ × ℚ)) : ℚ :=
  (buys.map (fun b => b.2 * (b.1 : ℚ))).sum

/-- A call against the `OrderManager`: a `validate_order` call for order `o`
against portfolio snapshot `p` at wall-clock `t`, or a `record_order` call
at wall-clock `t` (the engine issues those on `ACTIVE` acknowledgements and
also on terminal updates). -/
inductive OMEv where
  | vald (p : PortfolioState) (o : PyOrder) (t : ℚ)
  | record (oid : ℕ) (o : PyOrder) (t : ℚ)

/-- The wall-clock instant of a call. -/
def OMEv.time : OMEv → ℚ
  | OMEv.vald _ _ t => t
  | OMEv.record _ _ t => t

/-- Execute one `OrderManager` call (keeping the state the source's
mutations leave behind). -/
def om_step (st : OMState) : OMEv → OMState
  | OMEv.vald p o t => (st.validate_order p o t).2
  | OMEv.record oid o t => st.record_order oid o t

/-- Whether a call is a `validate_order` call that returns `True`. -/
def om_passes (st : OMState) : OMEv → Bool
  | OMEv.vald p o t => (st.validate_order p o t).1.1
  | OMEv.record _ _ _ => false

/-- Run a sequence of `OrderManager` calls. -/
def om_run (st : OMState) : List OMEv → OMState
  | [] => st
  | e :: es => om_run (om_step st e) es

/-- The wall-clock instants at which `validate_order` calls of the sequence
return `True`, in order. -/
def pass_times (st : OMState) : List OMEv → List ℚ
  | [] => []
  | e :: es =>
      (if om_passes st e then [e.time] else []) ++ pass_times (om_step st e) es

/-- The submission protocol the source documents (`record_order`: call this
after the order is submitted): every `validate_order` call that passes is
immediately followed by a `record_order` call at the same wall-clock
instant.  Other `record_order` calls may appear anywhere. -/
def disciplined (st : OMState) : List OMEv → Bool
  | [] => true
  | OMEv.vald p o t :: es =>
      (if (st.validate_order p o t).1.1 then
        match es with
        | OMEv.record _ _ t' :: _ => decide (t' = t)
        | _ => false
      else true) &&
        disciplined (om_step st (OMEv.vald p o t)) es
  | OMEv.record oid o t :: es =>
      disciplined (om_step st (OMEv.record oid o t)) es

/-- Wall-clock instants are nondecreasing along a call sequence. -/
def TimesMono (es : List OMEv) : Prop :=
  List.Chain' (· ≤ ·) (es.map OMEv.time)

theorem alookup_aset_self {κ α : Type} [DecidableEq κ]
    (l : List (κ × α)) (k : κ) (v : α) : alookup (aset l k v) k = some v := by
  induction l with
  | nil => simp [aset, alookup]
  | cons hd tl ih =>
      by_cases hk : hd.1 = k
      · simp [aset, alookup, hk]
      · simp [aset, alookup, hk, ih]

theorem alookup_aset_ne {κ α : Type} [DecidableEq κ]
    (l : List (κ × α)) (k k' : κ) (v : α) (h : k' ≠ k) :
    alookup (aset l k v) k' = alookup l k' := by
  induction l with
  | nil =>
      simp only [aset, alookup]
      rw [if_neg (fun he => h he.symm)]
  | cons hd tl ih =>
      by_cases hk : hd.1 = k
      · subst hk
        simp only [aset, if_pos rfl, alookup]
        rw [if_neg (fun he => h he.symm), if_neg (fun he => h he.symm)]
      · simp only [aset, if_neg hk, alookup]
        by_cases hk' : hd.1 = k'
        · simp [hk']
        · simp [hk', ih]

theorem aerase_aset_of_none {κ α : Type} [DecidableEq κ]
    (l : List (κ × α)) (k : κ) (v : α) (h : alookup l k = none) :
    aerase (aset l k v) k = l := by
  induction l with
  | nil => simp [aset, aerase]
  | cons hd tl ih =>
      simp only [alookup] at h
      by_cases hk : hd.1 = k
      · rw [if_pos hk] at h; exact absurd h (by simp)
      · rw [if_neg hk] at h
        simp only [aset, if_neg hk, aerase, if_neg hk]
        rw [ih h]

/-- Shared shape of `add_to_holding` failures: the only raise happens after
the (possibly inserted) zero entry, before any quantity or price mutation,
so cash and every `get_holding` observation are unchanged. -/
theorem add_to_holding_fail_state (p : PortfolioState) (s : String)
    (q : ℤ) (pr : ℚ) (e : PErr)
    (hf : (p.add_to_holding s q pr).1 = some e) :
    (p.add_to_holding s q pr).2.cash = p.cash ∧
      ∀ s', (p.add_to_holding s q pr).2.get_holding s' = p.get_holding s' := by
  cases hl : alookup p.holdings s with
  | some h0 =>
      by_cases h1 : h0.quantity + q < 0
      · refine ⟨?_, fun s' => ?_⟩
        · simp [PortfolioState.add_to_holding, hl, h1]
        · simp [PortfolioState.add_to_holding, hl, h1,
            PortfolioState.get_holding]
      · exfalso
        by_cases h2 : h0.quantity + q = 0
        · simp [PortfolioState.add_to_holding, hl, h1, h2] at hf
        · simp [PortfolioState.add_to_holding, hl, h1, h2] at hf
  | none =>
      by_cases h1 : q < 0
      · refine ⟨?_, fun s' => ?_⟩
        · simp [PortfolioState.add_to_holding, hl, alookup_aset_self, h1]
        · by_cases hs' : s' = s
          · subst hs'
            simp [PortfolioState.add_to_holding, hl, alookup_aset_self, h1,
              PortfolioState.get_holding]
          · simp [PortfolioState.add_to_holding, hl, alookup_aset_self, h1,
              PortfolioState.get_holding, alookup_aset_ne _ _ _ _ hs']
      · exfalso
        by_cases h2 : q = 0
        · simp [PortfolioState.add_to_holding, hl, alookup_aset_self, h1, h2]
            at hf
        · simp [PortfolioState.add_to_holding, hl, alookup_aset_self, h1, h2]
            at hf

/-- A portfolio with 100 in cash and no holdings. -/
def c2p : PortfolioState := ⟨100, []⟩

/-- A filled buy of 2 shares at 100: its cost 200 exceeds the cash 100. -/
def c2o : PyOrder := ⟨"AAPL", 2, 100, PyOrderStatus.FILLED, none, 2⟩

/-- C2 counterexample: a buy fill that fails for insufficient cash leaves
the portfolio's cash at −100, not at its pre-call value 100 —
`update_cash` subtracts the cost before raising, so the failed
`apply_order` is not atomic. -/
theorem c2_counterexample :
    (c2p.apply_order c2o).1 = some PErr.valueError ∧
      (c2p.apply_order c2o).2.cash = -100 ∧
      ¬ (c2p.apply_order c2o).2.cash = c2p.cash := by
  norm_num [c2p, c2o, PortfolioState.apply_order, PortfolioState.update_cash,
    PortfolioState.add_to_holding, alookup, aset, aerase]

/-- C2 (corrected): when `apply_order` fails on a `FILLED` order (either an
insufficient-cash buy or an over-sell), every holding observable through
`get_holding` is unchanged, but the cash has already absorbed the full cash
delta `−price·quantity` of the attempted fill (leaving it negative after a
failed buy, and increased by the proceeds after a failed over-sell). -/
theorem c2_amended (p : PortfolioState) (o : PyOrder) (e : PErr)
    (hs : o.status = PyOrderStatus.FILLED)
    (hf : (p.apply_order o).1 = some e) :
    (p.apply_order o).2.cash = p.cash - o.price * (o.quantity : ℚ) ∧
      ∀ s, (p.apply_order o).2.get_holding s = p.get_holding s := by
  unfold PortfolioState.apply_order at hf ⊢
  rw [if_neg (by simp [hs])] at hf ⊢
  unfold PortfolioState.update_cash at hf ⊢
  dsimp only at hf ⊢
  by_cases hc : p.cash + -(o.price * (o.quantity : ℚ)) < 0
  · rw [if_pos hc] at hf ⊢
    dsimp only at hf ⊢
    exact ⟨by ring_nf, fun s' => rfl⟩
  · rw [if_neg hc] at hf ⊢
    dsimp only at hf ⊢
    have hmain :=
      add_to_holding_fail_state
        { cash := p.cash + -(o.price * (o.quantity : ℚ)),
          holdings := p.holdings }
        o.symbol o.quantity o.price e hf
    refine ⟨?_, fun s' => (hmain.2 s').trans rfl⟩
    rw [hmain.1]
    ring_nf

/-- C2 witness: the amended statement evaluated on the concrete failing
buy. -/
theorem c2_witness :
    (c2p.apply_order c2o).2.cash = c2p.cash - c2o.price * (c2o.quantity : ℚ) ∧
      (c2p.apply_order c2o).2.get_holding "AAPL" = c2p.get_holding "AAPL" := by
  have hf : (c2p.apply_order c2o).1 = some PErr.valueError := by
    norm_num [c2p, c2o, PortfolioState.apply_order, PortfolioState.update_cash]
  exact ⟨(c2_amended c2p c2o PErr.valueError rfl hf).1,
    (c2_amended c2p c2o PErr.valueError rfl hf).2 "AAPL"⟩

/-- C4 amended: `update_order_fill` returns the raw difference between the
reported cumulative fill and the last known value (0 for untracked
orders) — no clamping — and the remaining quantity
`|quantity| − filled_quantity`. -/
theorem c4_amended (st : OMState) (oid : ℕ) (o : PyOrder) (fq : ℤ) :
    ((st.update_order_fill oid o fq).1).1 =
        fq - (alookup st.active_orders oid).getD 0 ∧
      ((st.update_order_fill oid o fq).1).2 = |o.quantity| - fq := by
  unfold OMState.update_order_fill PyOrder.remaining_quantity
  dsimp only
  split_ifs <;> exact ⟨rfl, rfl⟩

/-- A fresh order manager with default caps, for the C4 counterexample. -/
def c4_om0 : OMState := OMState.mk0 60 none none

/-- A buy of 100 whose fills will be reported out of order. -/
def c4_o : PyOrder := ⟨"AAPL", 100, 100, PyOrderStatus.ACTIVE, none, 0⟩

/-- The order manager after recording the order and a cumulative fill of
50. -/
def c4_step1 : (ℤ × ℤ) × PyOrder × OMState :=
  (c4_om0.record_order 1 c4_o 0).update_order_fill 1 c4_o 50

/-- The result of then reporting a lower cumulative fill of 30. -/
def c4_step2 : (ℤ × ℤ) × PyOrder × OMState :=
  c4_step1.2.2.update_order_fill 1 c4_step1.2.1 30

/-- C4 counterexample: after a cumulative fill of 50, a regressed report of
30 makes `update_order_fill` return the negative delta −20; the claimed
clamping to 0 does not exist in the code. -/
theorem c4_counterexample : (c4_step2.1).1 = -20 ∧ (c4_step2.1).1 < 0 := by
  constructor <;>
    norm_num [c4_step2, c4_step1, c4_om0, c4_o, OMState.mk0,
      OMState.record_order, OMState.update_order_fill,
      PyOrder.remaining_quantity, aset, alookup, aerase, deque_append]

theorem list_getD_set_self {α : Type} (l : List α) (n : ℕ) (x d : α)
    (h : n < l.length) : (l.set n x).getD n d = x := by
  rw [List.getD_eq_getElem?_getD, List.getElem?_set_self',
    List.getElem?_eq_getElem h]
  rfl

theorem list_getD_set_ne {α : Type} (l : List α) (n m : ℕ) (x d : α)
    (h : m ≠ n) : (l.set m x).getD n d = l.getD n d := by
  rw [List.getD_eq_getElem?_getD, List.getD_eq_getElem?_getD,
    List.getElem?_set_ne h]

theorem list_getD_append {α : Type} (l l2 : List α) (n : ℕ) (d : α)
    (h : n < l.length) : (l ++ l2).getD n d = l.getD n d := by
  rw [List.getD_eq_getElem?_getD, List.getD_eq_getElem?_getD,
    List.getElem?_append, if_pos h]

/-- `ensure_order_id` writes (at most) the object at reference `r'`; every
other reference reads unchanged. -/
theorem ensure_order_id_preserves (st : MEState) (r' : ℕ) (h1 : OrderHeap)
    (n : ℕ) (hne : r' ≠ n) (d : PyOrder) :
    (st.ensure_order_id r' h1).getD n d = h1.getD n d := by
  unfold MEState.ensure_order_id
  dsimp only
  split_ifs
  · exact list_getD_set_ne _ _ _ _ _ hne
  · rfl

/-- `attempt_to_fill_order` writes only the object at reference `r'`. -/
theorem attempt_to_fill_preserves (st : MEState) (r' : ℕ) (h2 : OrderHeap)
    (u : ℚ) (n : ℕ) (hne : r' ≠ n) (d : PyOrder) :
    ((st.attempt_to_fill_order r' h2 u).2).getD n d = h2.getD n d := by
  unfold MEState.attempt_to_fill_order
  dsimp only
  exact list_getD_set_ne _ _ _ _ _ hne

/-- C10: `process_order` never writes through the caller's reference — the
submitted order object keeps all of its pre-call field values, and the
published (returned) object is the freshly copied one at reference
`h.length`, never the caller's. -/
theorem c10_process_order_frame (st : MEState) (h : OrderHeap) (r : ℕ)
    (u : ℚ) (hr : r < h.length) :
    ((st.process_order r h u).2.2).getD r default = h.getD r default ∧
      (st.process_order r h u).1 = h.length := by
  unfold MEState.process_order
  dsimp only
  refine ⟨?_, rfl⟩
  rw [attempt_to_fill_preserves _ _ _ _ _ (ne_of_gt hr)]
  rw [ensure_order_id_preserves _ _ _ _ (ne_of_gt hr)]
  exact list_getD_append _ _ _ _ hr

/-- C10 witness: the frame property evaluated on a one-object heap. -/
theorem c10_witness :
    (((⟨0, 0, [], []⟩ : MEState).process_order 0 [default] 0).2.2).getD 0
        default = [(default : PyOrder)].getD 0 default ∧
      ((⟨0, 0, [], []⟩ : MEState).process_order 0 [default] 0).1 =
        [(default : PyOrder)].length :=
  c10_process_order_frame ⟨0, 0, [], []⟩ [default] 0 0 (by norm_num)

/-- The guards `cancel_rate > 0` and `partial_fill_rate > 0` in
`attempt_to_fill_order` are redundant for a nonnegative draw: the branch
taken is exactly the three-way range split on `u`. -/
theorem guarded_fill_branches {α : Type} (cr pfr u : ℚ) (hu : 0 ≤ u)
    (a b c : α) :
    (if cr > 0 ∧ u < cr then a
      else if pfr > 0 ∧ u < pfr + cr then b else c) =
      (if u < cr then a else if u < cr + pfr then b else c) := by
  have hcr : (cr > 0 ∧ u < cr) ↔ u < cr := by
    constructor
    · exact And.right
    · intro hx; exact ⟨lt_of_le_of_lt hu hx, hx⟩
  rw [if_congr hcr rfl rfl]
  by_cases h1 : u < cr
  · rw [if_pos h1, if_pos h1]
  · rw [if_neg h1, if_neg h1]
    have hpfr : (pfr > 0 ∧ u < pfr + cr) ↔ u < cr + pfr := by
      constructor
      · intro hx; rw [add_comm] at hx; exact hx.2
      · intro hx
        have hcu : cr ≤ u := le_of_not_lt h1
        constructor
        · linarith
        · linarith
    rw [if_congr hpfr rfl rfl]

/-- C3 (corrected): for any nonnegative draw, `attempt_to_fill_order`
rewrites the order at `r` with the three-way range outcome of
`code_c3_outcome`: cancel fills 0, partial fill sets Python
`quantity // 3` of the signed quantity (never promoted to a full fill for
small quantities), full fill sets the signed quantity; all other fields are
kept. -/
theorem c3_amended (st : MEState) (h : OrderHeap) (r : ℕ) (u : ℚ)
    (hr : r < h.length) (hu : 0 ≤ u) :
    ((st.attempt_to_fill_order r h u).2).getD r default =
      { h.getD r default with
        status := (code_c3_outcome st.cancel_rate st.partial_fill_rate
          (h.getD r default).quantity u).1,
        filled_quantity := (code_c3_outcome st.cancel_rate
          st.partial_fill_rate (h.getD r default).quantity u).2 } := by
  unfold MEState.attempt_to_fill_order
  dsimp only
  rw [list_getD_set_self _ _ _ _ hr]
  rw [guarded_fill_branches st.cancel_rate st.partial_fill_rate u hu]
  unfold code_c3_outcome
  by_cases h1 : u < st.cancel_rate
  · simp [h1]
  · by_cases h2 : u < st.cancel_rate + st.partial_fill_rate
    · simp [h1, h2]
    · simp [h1, h2]

/-- A matching engine forced into the partial-fill branch
(`cancel_rate = 0`, `partial_fill_rate = 1`). -/
def c3_me : MEState := ⟨0, 1, [], []⟩

/-- A submitted buy of 2 shares: `|quantity| < 3`. -/
def c3_o : PyOrder := ⟨"AAPL", 2, 150, PyOrderStatus.PENDING, some "X", 0⟩

/-- The object the engine leaves at the order's reference. -/
def c3_res : PyOrder :=
  ((c3_me.attempt_to_fill_order 0 [c3_o] 0).2).getD 0 default

/-- C3 counterexample: with `|quantity| = 2 < 3` in the partial-fill regime
the code leaves `PARTIALLY_FILLED` with filled quantity `2 // 3 = 0`,
while the claim demands this be treated as a full fill
(`FILLED` with filled quantity 2). -/
theorem c3_counterexample :
    (c3_res.status, c3_res.filled_quantity) =
        (PyOrderStatus.PARTIALLY_FILLED, 0) ∧
      claim_c3_outcome c3_me.cancel_rate c3_me.partial_fill_rate
          c3_o.quantity 0 = (PyOrderStatus.FILLED, 2) := by
  constructor <;>
    norm_num [c3_res, c3_me, c3_o, MEState.attempt_to_fill_order,
      claim_c3_outcome, aset, Int.fdiv, List.set, List.getD]

/-- C3 witness: the amended statement evaluated at the concrete small-order
partial fill. -/
theorem c3_witness :
    ((c3_me.attempt_to_fill_order 0 [c3_o] 0).2).getD 0 default =
      { [c3_o].getD 0 default with
        status := (code_c3_outcome c3_me.cancel_rate c3_me.partial_fill_rate
          ([c3_o].getD 0 default).quantity 0).1,
        filled_quantity := (code_c3_outcome c3_me.cancel_rate
          c3_me.partial_fill_rate ([c3_o].getD 0 default).quantity 0).2 } :=
  c3_amended c3_me [c3_o] 0 0 (by norm_num) le_rfl

/-- An order manager with default caps over an empty portfolio. -/
def c1_om : OMState := OMState.mk0 60 none none

/-- A portfolio with no cash and no holdings: it can afford nothing. -/
def c1_p : PortfolioState := ⟨0, []⟩

/-- The order `_on_market_data` constructs for the buy signal
`("AAPL", 10, 100, BUY)`: status `PENDING`, zero filled. -/
def c1_o : PyOrder := ⟨"AAPL", 10, 100, PyOrderStatus.PENDING, none, 0⟩

/-- C1: `validate_order` rejects the unaffordable order (returns `False`
with the insufficient-cash reason), yet `_on_market_data` still submits it
to the gateway, because the source tests the truthiness of the returned
`(bool, reason)` tuple — which is always truthy — instead of the boolean.
The claimed only-if-valid submission does not hold on the code. -/
theorem c1_invalid_order_submitted :
    (c1_om.validate_order c1_p c1_o 0).1 =
        (false, VReason.insufficient_cash) ∧
      (on_market_data c1_om c1_p 0 [⟨"AAPL", 10, 100, PyAction.BUY⟩]).1 =
        [c1_o] := by
  constructor
  · norm_num [c1_om, c1_p, c1_o, OMState.mk0, OMState.validate_order,
      PortfolioState.can_execute_order, PortfolioState.get_holding, alookup,
      OMState.check_rate_limit]
  · norm_num [on_market_data, c1_om, c1_p, c1_o, py_truthy_pair,
      OMState.mk0, OMState.validate_order,
      PortfolioState.can_execute_order, PortfolioState.get_holding, alookup,
      OMState.check_rate_limit]
    rfl

/-- C8: from no prior tracker position, a buy of `q` at `p₁` followed by a
sell of `q` at `p₂` appends exactly one realized P&L entry `(p₂ − p₁)·q` to
`closed_pnls` and removes the symbol's position. -/
theorem c8_round_trip_pnl (tr : TrackerState) (sym : String) (q : ℤ)
    (p1 p2 ts1 ts2 : ℚ) (habs : alookup tr.positions sym = none)
    (hq : 0 < q) :
    ((tr.record_trade ⟨sym, q, p1, PyOrderStatus.FILLED, none, q⟩ ts1).record_trade
        ⟨sym, -q, p2, PyOrderStatus.FILLED, none, q⟩ ts2).closed_pnls =
        tr.closed_pnls ++ [(p2 - p1) * (q : ℚ)] ∧
      alookup ((tr.record_trade ⟨sym, q, p1, PyOrderStatus.FILLED, none, q⟩
          ts1).record_trade
          ⟨sym, -q, p2, PyOrderStatus.FILLED, none, q⟩ ts2).positions sym =
        none := by
  have hqne : q ≠ 0 := ne_of_gt hq
  have hnegq : ¬ (-q > 0) := by omega
  have habsq : |q| = q := abs_of_pos hq
  have hzero : q + -q = 0 := by ring
  unfold TrackerState.record_trade TrackerState.update_position
  dsimp only
  rw [if_pos hq, habs]
  dsimp only
  rw [if_pos hqne]
  dsimp only
  rw [if_neg hnegq, alookup_aset_self]
  dsimp only
  rw [hzero]
  rw [if_pos rfl]
  dsimp only
  rw [if_pos hq, habsq]
  constructor
  · rfl
  · rw [aerase_aset_of_none _ _ _ habs]
    exact habs

/-- C8 witness: a 10-share round trip bought at 150 and sold at 170
realizes exactly one closed P&L of 200. -/
theorem c8_witness :
    (((TrackerState.mk0 1000).record_trade
          ⟨"AAPL", 10, 150, PyOrderStatus.FILLED, none, 10⟩ 1).record_trade
        ⟨"AAPL", -10, 170, PyOrderStatus.FILLED, none, 10⟩ 2).closed_pnls =
        (TrackerState.mk0 1000).closed_pnls ++ [(170 - 150) * (10 : ℚ)] ∧
      alookup (((TrackerState.mk0 1000).record_trade
          ⟨"AAPL", 10, 150, PyOrderStatus.FILLED, none, 10⟩ 1).record_trade
          ⟨"AAPL", -10, 170, PyOrderStatus.FILLED, none, 10⟩ 2).positions
        "AAPL" = none :=
  c8_round_trip_pnl (TrackerState.mk0 1000) "AAPL" 10 150 170 1 2 rfl
    (by norm_num)

theorem sumQ_nil : sumQ [] = 0 := rfl

theorem sumQ_cons (b : ℤ × ℚ) (rest : List (ℤ × ℚ)) :
    sumQ (b :: rest) = b.1 + sumQ rest := by simp [sumQ]

theorem sumC_nil : sumC [] = 0 := rfl

theorem sumC_cons (b : ℤ × ℚ) (rest : List (ℤ × ℚ)) :
    sumC (b :: rest) = b.2 * (b.1 : ℚ) + sumC rest := by simp [sumC]

theorem alookup_eq_none_of_not_mem {α : Type} (l : List (String × α))
    (k : String) (h : k ∉ l.map Prod.fst) : alookup l k = none := by
  induction l with
  | nil => rfl
  | cons hd tl ih =>
      simp only [List.map_cons, List.mem_cons] at h
      push_neg at h
      simp only [alookup]
      rw [if_neg (fun he => h.1 he.symm)]
      exact ih h.2

theorem alookup_aerase_self {α : Type} (l : List (String × α)) (k : String)
    (h : (l.map Prod.fst).Nodup) : alookup (aerase l k) k = none := by
  induction l with
  | nil => rfl
  | cons hd tl ih =>
      simp only [List.map_cons, List.nodup_cons] at h
      by_cases hk : hd.1 = k
      · simp only [aerase, if_pos hk]
        exact alookup_eq_none_of_not_mem tl k (hk ▸ h.1)
      · simp only [aerase, if_neg hk, alookup]
        exact ih h.2

/-- One same-direction buy applied to an existing (possibly zero-quantity)
entry: no exception, weighted-average update. -/
theorem add_to_holding_buy_step (p : PortfolioState) (sym : String)
    (q0 : ℤ) (a0 : ℚ) (q : ℤ) (pr : ℚ)
    (hl : alookup p.holdings sym = some ⟨q0, a0⟩) (hq0 : 0 ≤ q0)
    (hq : 0 < q) :
    p.add_to_holding sym q pr =
      (none, { p with
        holdings := aset p.holdings sym (Holding.mk (q0 + q)
                      ((a0 * ((q0 : ℤ) : ℚ) + pr * ((q : ℤ) : ℚ)) /
                        (((q0 + q : ℤ)) : ℚ))) }) := by
  unfold PortfolioState.add_to_holding
  dsimp only
  rw [hl]
  dsimp only
  rw [hl]
  dsimp only [Option.getD_some]
  rw [if_neg (by omega), if_neg (by omega), if_pos hq]

/-- Calling `add_to_holding` on an absent symbol equals calling it after
pre-inserting the zero entry the source creates. -/
theorem add_to_holding_absent_eq (p : PortfolioState) (sym : String)
    (q : ℤ) (pr : ℚ) (habs : alookup p.holdings sym = none) :
    p.add_to_holding sym q pr =
      PortfolioState.add_to_holding
        { p with holdings := aset p.holdings sym ⟨0, 0⟩ } sym q pr := by
  unfold PortfolioState.add_to_holding
  dsimp only
  rw [habs]
  dsimp only
  rw [alookup_aset_self]
  dsimp only
  rw [alookup_aset_self]

/-- Weighted-average invariant of a positive-quantity buy sequence applied
to an existing entry `(q0, a0)` with `q0 ≥ 0` (and `a0 = 0` when
`q0 = 0`). -/
theorem apply_buys_from (sym : String) :
    ∀ (buys : List (ℤ × ℚ)) (p : PortfolioState) (q0 : ℤ) (a0 : ℚ),
      (∀ b ∈ buys, 0 < b.1) →
      alookup p.holdings sym = some ⟨q0, a0⟩ →
      0 ≤ q0 → (0 < q0 ∨ a0 = 0) →
      alookup (apply_buys p sym buys).holdings sym =
        some ⟨q0 + sumQ buys,
          (a0 * ((q0 : ℤ) : ℚ) + sumC buys) /
            (((q0 + sumQ buys : ℤ)) : ℚ)⟩ := by
  intro buys
  induction buys with
  | nil =>
      intro p q0 a0 _ hl hq0 ha
      rw [show apply_buys p sym [] = p from rfl, hl, sumQ_nil, sumC_nil]
      simp only [add_zero]
      have hval : a0 * ((q0 : ℤ) : ℚ) / (((q0 : ℤ)) : ℚ) = a0 := by
        rcases ha with hpos | hzero
        · exact mul_div_cancel_right₀ a0
            (Int.cast_ne_zero.mpr (by omega))
        · subst hzero; simp
      rw [hval]
  | cons b rest ih =>
      intro p q0 a0 hpos hl hq0 ha
      obtain ⟨q, pr⟩ := b
      have hq : 0 < q := hpos (q, pr) (List.mem_cons_self _ _)
      have hrest : ∀ x ∈ rest, 0 < x.1 :=
        fun x hx => hpos x (List.mem_cons_of_mem _ hx)
      rw [show apply_buys p sym ((q, pr) :: rest) =
        apply_buys (p.add_to_holding sym q pr).2 sym rest from rfl]
      rw [add_to_holding_buy_step p sym q0 a0 q pr hl hq0 hq]
      dsimp only
      rw [ih _ (q0 + q) _ hrest (alookup_aset_self _ _ _) (by omega)
        (Or.inl (by omega))]
      have hne : (((q0 + q : ℤ)) : ℚ) ≠ 0 := Int.cast_ne_zero.mpr (by omega)
      rw [div_mul_cancel₀ _ hne, sumQ_cons, sumC_cons]
      simp only [Option.some.injEq, Holding.mk.injEq]
      constructor
      · ring
      · rw [show q0 + q + sumQ rest = q0 + (q + sumQ rest) from by ring,
          add_assoc]

/-- C7: a same-direction buy sequence with total cost C and quantity Q,
started with no holding of the symbol, leaves `avg_price = C / Q` (and
quantity Q); and a successful reduction (sell) either closes the holding
entirely or leaves its `avg_price` unchanged. -/
theorem c7_avg_price_law :
    (∀ (p : PortfolioState) (sym : String) (buys : List (ℤ × ℚ)),
        (∀ b ∈ buys, 0 < b.1) → alookup p.holdings sym = none →
        (apply_buys p sym buys).get_holding sym =
          ⟨sumQ buys, sumC buys / (((sumQ buys : ℤ)) : ℚ)⟩) ∧
      (∀ (p : PortfolioState) (sym : String) (q : ℤ) (pr : ℚ),
        q < 0 → (p.holdings.map Prod.fst).Nodup →
        (p.add_to_holding sym q pr).1 = none →
        alookup ((p.add_to_holding sym q pr).2).holdings sym = none ∨
          (((p.add_to_holding sym q pr).2).get_holding sym).avg_price =
            (p.get_holding sym).avg_price) := by
  constructor
  · intro p sym buys hpos habs
    cases buys with
    | nil =>
        rw [show apply_buys p sym [] = p from rfl]
        unfold PortfolioState.get_holding
        rw [habs, sumQ_nil, sumC_nil]
        norm_num
    | cons b rest =>
        obtain ⟨q, pr⟩ := b
        rw [show apply_buys p sym ((q, pr) :: rest) =
          apply_buys (p.add_to_holding sym q pr).2 sym rest from rfl]
        rw [add_to_holding_absent_eq p sym q pr habs]
        rw [show apply_buys
            (PortfolioState.add_to_holding
              { p with holdings := aset p.holdings sym ⟨0, 0⟩ } sym q pr).2
            sym rest =
          apply_buys { p with holdings := aset p.holdings sym ⟨0, 0⟩ } sym
            ((q, pr) :: rest) from rfl]
        unfold PortfolioState.get_holding
        rw [apply_buys_from sym ((q, pr) :: rest) _ 0 0 hpos
          (alookup_aset_self _ _ _) le_rfl (Or.inr rfl)]
        norm_num
  · intro p sym q pr hq hnd hok
    cases hl : alookup p.holdings sym with
    | none =>
        exfalso
        rw [add_to_holding_absent_eq p sym q pr hl] at hok
        unfold PortfolioState.add_to_holding at hok
        dsimp only at hok
        rw [alookup_aset_self] at hok
        dsimp only at hok
        rw [alookup_aset_self] at hok
        dsimp only [Option.getD_some] at hok
        rw [if_pos (by omega : (0 : ℤ) + q < 0)] at hok
        exact Option.noConfusion hok
    | some h0 =>
        unfold PortfolioState.add_to_holding at hok ⊢
        dsimp only at hok ⊢
        rw [hl] at hok ⊢
        dsimp only at hok ⊢
        rw [hl] at hok ⊢
        dsimp only [Option.getD_some] at hok ⊢
        by_cases h1 : h0.quantity + q < 0
        · rw [if_pos h1] at hok
          exact absurd hok (by simp)
        · rw [if_neg h1] at hok ⊢
          by_cases h2 : h0.quantity + q = 0
          · rw [if_pos h2]
            left
            dsimp only
            exact alookup_aerase_self _ _ hnd
          · rw [if_neg h2]
            right
            dsimp only
            rw [if_neg (by omega : ¬ q > 0)]
            unfold PortfolioState.get_holding
            dsimp only
            rw [alookup_aset_self, hl]
            rfl

/-- C7 witness: buys of 10@150 and 30@100 give avg price 4500/40 = 112.5;
selling 20 from a 40-share holding keeps the avg price. -/
theorem c7_witness :
    ((apply_buys ⟨0, []⟩ "AAPL" [(10, 150), (30, 100)]).get_holding "AAPL" =
        ⟨sumQ [(10, 150), (30, 100)],
          sumC [(10, 150), (30, 100)] /
            ((sumQ [(10, 150), (30, 100)] : ℤ) : ℚ)⟩) ∧
      (alookup ((PortfolioState.add_to_holding
            ⟨0, [("AAPL", ⟨40, 225 / 2⟩)]⟩ "AAPL" (-20) 200).2).holdings
          "AAPL" = none ∨
        (((PortfolioState.add_to_holding ⟨0, [("AAPL", ⟨40, 225 / 2⟩)]⟩
              "AAPL" (-20) 200).2).get_holding "AAPL").avg_price =
          ((⟨0, [("AAPL", ⟨40, 225 / 2⟩)]⟩ : PortfolioState).get_holding
            "AAPL").avg_price) :=
  ⟨c7_avg_price_law.1 ⟨0, []⟩ "AAPL" [(10, 150), (30, 100)]
      (by intro b hb; simp only [List.mem_cons, List.mem_singleton] at hb
          rcases hb with h | h | h <;> first | (subst h; norm_num) | cases h)
      rfl,
    c7_avg_price_law.2 ⟨0, [("AAPL", ⟨40, 225 / 2⟩)]⟩ "AAPL" (-20) 200
      (by norm_num) (by simp) rfl⟩

theorem spec_dd_from_nonneg (vs : List ℚ) :
    ∀ peak : ℚ, 0 ≤ spec_dd_from peak vs := by
  induction vs with
  | nil => intro peak; simp [spec_dd_from]
  | cons v rest ih =>
      intro peak
      unfold spec_dd_from
      exact le_max_of_le_left (by simp [le_max_right])

theorem dd_at_zero (peak v : ℚ) (rest : List ℚ) :
    dd_at peak (v :: rest) 0 = max peak v - v := by
  unfold dd_at peak_at
  simp

theorem dd_at_succ (peak v : ℚ) (rest : List ℚ) (k : ℕ) :
    dd_at peak (v :: rest) (k + 1) = dd_at (max peak v) rest k := by
  unfold dd_at peak_at
  simp [List.take_succ_cons, List.foldl_cons]

theorem peak_at_zero (peak v : ℚ) (rest : List ℚ) :
    peak_at peak (v :: rest) 0 = max peak v := by
  unfold peak_at
  simp

theorem pct_at_zero (peak v : ℚ) (rest : List ℚ) :
    pct_at peak (v :: rest) 0 =
      if max peak v > 0 then (max peak v - v) / max peak v * 100 else 0 := by
  unfold pct_at
  rw [peak_at_zero, dd_at_zero]

theorem pct_at_succ (peak v : ℚ) (rest : List ℚ) (k : ℕ) :
    pct_at peak (v :: rest) (k + 1) = pct_at (max peak v) rest k := by
  unfold pct_at peak_at
  rw [show dd_at peak (v :: rest) (k + 1) = dd_at (max peak v) rest k from
    dd_at_succ peak v rest k]
  simp [List.take_succ_cons, List.foldl_cons]

/-- Full characterisation of the `_calculate_drawdown` loop: the final
maximum drawdown is the maximum of the accumulator and the spec formula
threaded from the current peak, and the percentage tracks the first index
attaining the maximum. -/
theorem cd_go_spec (vs : List ℚ) :
    ∀ (peak maxdd maxpct : ℚ), 0 ≤ maxdd →
      (cd_go peak maxdd maxpct vs).1 = max maxdd (spec_dd_from peak vs) ∧
      (spec_dd_from peak vs ≤ maxdd →
        (cd_go peak maxdd maxpct vs).2 = maxpct) ∧
      (maxdd < spec_dd_from peak vs →
        ∃ k, k < vs.length ∧
          dd_at peak vs k = (cd_go peak maxdd maxpct vs).1 ∧
          (∀ j, j < k →
            dd_at peak vs j < (cd_go peak maxdd maxpct vs).1) ∧
          (cd_go peak maxdd maxpct vs).2 = pct_at peak vs k) := by
  induction vs with
  | nil =>
      intro peak maxdd maxpct h0
      refine ⟨?_, fun _ => rfl, fun hlt => absurd hlt ?_⟩
      · simp [cd_go, spec_dd_from, max_eq_left h0]
      · simp only [spec_dd_from]
        exact not_lt.mpr h0
  | cons v rest ih =>
      intro peak maxdd maxpct h0
      have hpeak : (if v > peak then v else peak) = max peak v := by
        split_ifs with h
        · exact (max_eq_right (le_of_lt h)).symm
        · exact (max_eq_left (le_of_not_lt h)).symm
      have hcd : cd_go peak maxdd maxpct (v :: rest) =
          (if max peak v - v > maxdd then
            cd_go (max peak v) (max peak v - v)
              (if max peak v > 0 then (max peak v - v) / max peak v * 100
                else 0) rest
          else cd_go (max peak v) maxdd maxpct rest) := by
        simp only [cd_go]
        rw [hpeak]
      have hspec : spec_dd_from peak (v :: rest) =
          max (max peak v - v) (spec_dd_from (max peak v) rest) := rfl
      by_cases hvm : max peak v - v > maxdd
      · have hD0 : 0 ≤ max peak v - v :=
          sub_nonneg.mpr (le_max_right peak v)
        obtain ⟨ih1, ih2, ih3⟩ := ih (max peak v) (max peak v - v)
          (if max peak v > 0 then (max peak v - v) / max peak v * 100 else 0)
          hD0
        rw [hcd, if_pos hvm]
        refine ⟨?_, ?_, ?_⟩
        · rw [ih1, hspec]
          exact (max_eq_right (le_trans (le_of_lt hvm)
            (le_max_left _ _))).symm
        · intro hle
          rw [hspec] at hle
          exact absurd (lt_of_lt_of_le hvm
            (le_trans (le_max_left _ _) hle)) (lt_irrefl _)
        · intro _
          rcases le_or_lt (spec_dd_from (max peak v) rest)
            (max peak v - v) with hSD | hDS
          · refine ⟨0, Nat.succ_pos _, ?_, ?_, ?_⟩
            · rw [dd_at_zero, ih1, max_eq_left hSD]
            · intro j hj; exact absurd hj (Nat.not_lt_zero j)
            · rw [ih2 hSD, pct_at_zero]
          · obtain ⟨k, hk, hk1, hk2, hk3⟩ := ih3 hDS
            refine ⟨k + 1, Nat.succ_lt_succ hk, ?_, ?_, ?_⟩
            · rw [dd_at_succ]; exact hk1
            · intro j hj
              cases j with
              | zero =>
                  rw [dd_at_zero, ih1, max_eq_right (le_of_lt hDS)]
                  exact hDS
              | succ j' =>
                  rw [dd_at_succ]
                  exact hk2 j' (Nat.lt_of_succ_lt_succ hj)
            · rw [pct_at_succ]; exact hk3
      · obtain ⟨ih1, ih2, ih3⟩ := ih (max peak v) maxdd maxpct h0
        rw [hcd, if_neg hvm]
        refine ⟨?_, ?_, ?_⟩
        · rw [ih1, hspec, ← max_assoc, max_eq_left (not_lt.mp hvm)]
        · intro hle
          rw [hspec] at hle
          exact ih2 (le_trans (le_max_right _ _) hle)
        · intro hlt
          rw [hspec] at hlt
          have hS : maxdd < spec_dd_from (max peak v) rest := by
            rcases lt_max_iff.mp hlt with h | h
            · exact absurd h hvm
            · exact h
          obtain ⟨k, hk, hk1, hk2, hk3⟩ := ih3 hS
          refine ⟨k + 1, Nat.succ_lt_succ hk, ?_, ?_, ?_⟩
          · rw [dd_at_succ]; exact hk1
          · intro j hj
            cases j with
            | zero =>
                rw [dd_at_zero, ih1]
                exact lt_of_le_of_lt (not_lt.mp hvm)
                  (lt_of_lt_of_le hS (le_max_right maxdd _))
            | succ j' =>
                rw [dd_at_succ]
                exact hk2 j' (Nat.lt_of_succ_lt_succ hj)
          · rw [pct_at_succ]; exact hk3

/-- C5 (corrected): the computed `max_drawdown` equals the spec formula with
the running peak seeded at `initial_capital` (not at the first recorded
sample), and `max_drawdown_pct` is `100·dd/peak` taken at the first sample
index attaining that maximum (0 when the maximum drawdown is 0). -/
theorem c5_amended (tr : TrackerState) :
    tr.calculate_drawdown.1 =
        spec_dd_from tr.initial_capital (tr.equity_curve.map Prod.snd) ∧
      (spec_dd_from tr.initial_capital (tr.equity_curve.map Prod.snd) = 0 →
        tr.calculate_drawdown.2 = 0) ∧
      (0 < spec_dd_from tr.initial_capital (tr.equity_curve.map Prod.snd) →
        ∃ k, k < (tr.equity_curve.map Prod.snd).length ∧
          dd_at tr.initial_capital (tr.equity_curve.map Prod.snd) k =
            tr.calculate_drawdown.1 ∧
          (∀ j, j < k →
            dd_at tr.initial_capital (tr.equity_curve.map Prod.snd) j <
              tr.calculate_drawdown.1) ∧
          tr.calculate_drawdown.2 =
            pct_at tr.initial_capital (tr.equity_curve.map Prod.snd) k) := by
  obtain ⟨h1, h2, h3⟩ :=
    cd_go_spec (tr.equity_curve.map Prod.snd) tr.initial_capital 0 0 le_rfl
  unfold TrackerState.calculate_drawdown
  refine ⟨?_, ?_, ?_⟩
  · rw [h1, max_eq_right (spec_dd_from_nonneg _ _)]
  · intro hz; exact h2 (le_of_eq hz)
  · intro hpos; exact h3 hpos

/-- A tracker whose initial capital 200 exceeds its only equity sample
100. -/
def c5_tr : TrackerState := ⟨200, [], [], [], [(0, 100)]⟩

/-- C5 counterexample: with initial capital 200 and the single equity
sample 100, the code reports max drawdown 100 (peak seeded from the
initial capital) and 50%, while the claim's formula over the recorded
samples alone gives 0. -/
theorem c5_counterexample :
    c5_tr.calculate_drawdown = (100, 50) ∧
      spec_max_drawdown (c5_tr.equity_curve.map Prod.snd) = 0 := by
  constructor <;>
    norm_num [c5_tr, TrackerState.calculate_drawdown, cd_go,
      spec_max_drawdown, spec_dd_from]

/-- C5 witness: the amended statement evaluated on the concrete tracker. -/
theorem c5_witness :
    c5_tr.calculate_drawdown.1 =
        spec_dd_from c5_tr.initial_capital
          (c5_tr.equity_curve.map Prod.snd) ∧
      ∃ k, k < (c5_tr.equity_curve.map Prod.snd).length ∧
        dd_at c5_tr.initial_capital (c5_tr.equity_curve.map Prod.snd) k =
          c5_tr.calculate_drawdown.1 ∧
        (∀ j, j < k →
          dd_at c5_tr.initial_capital (c5_tr.equity_curve.map Prod.snd) j <
            c5_tr.calculate_drawdown.1) ∧
        c5_tr.calculate_drawdown.2 =
          pct_at c5_tr.initial_capital (c5_tr.equity_curve.map Prod.snd) k :=
  ⟨(c5_amended c5_tr).1,
    (c5_amended c5_tr).2.2 (by norm_num [c5_tr, spec_dd_from])⟩

theorem key_lt_eq_false_iff (a b : BookOrder) :
    key_lt a b = false ↔
      (b.priority_price < a.priority_price ∨
        (a.priority_price = b.priority_price ∧ b.timestamp ≤ a.timestamp)) := by
  unfold key_lt
  by_cases h1 : a.priority_price < b.priority_price
  · simp [h1, asymm h1, ne_of_lt h1]
  · by_cases h2 : a.priority_price = b.priority_price
    · simp [h1, h2, lt_irrefl, not_lt]
    · have h3 : b.priority_price < a.priority_price :=
        lt_of_le_of_ne (not_lt.mp h1) (fun he => h2 he.symm)
      simp [h1, h2, h3]

theorem key_lt_irrefl (a : BookOrder) : key_lt a a = false := by
  rw [key_lt_eq_false_iff]
  right
  exact ⟨rfl, le_rfl⟩

theorem key_lt_asymm {a b : BookOrder} (h : key_lt a b = true) :
    key_lt b a = false := by
  unfold key_lt at h
  rw [key_lt_eq_false_iff]
  simp only [Bool.or_eq_true, Bool.and_eq_true, decide_eq_true_eq] at h
  rcases h with h | ⟨hh1, hh2⟩
  · left; exact h
  · right; exact ⟨hh1.symm, le_of_lt hh2⟩

theorem key_not_lt_trans {x m b : BookOrder} (h1 : key_lt x m = false)
    (h2 : key_lt m b = false) : key_lt x b = false := by
  rw [key_lt_eq_false_iff] at h1 h2 ⊢
  rcases h1 with h1 | ⟨h1a, h1b⟩ <;> rcases h2 with h2 | ⟨h2a, h2b⟩
  · left; exact lt_trans h2 h1
  · left; rw [← h2a]; exact h1
  · left; rw [h1a]; exact h2
  · right; exact ⟨h1a.trans h2a, le_trans h2b h1b⟩

theorem heap_min_mem {l : List BookOrder} {m : BookOrder}
    (h : heap_min l = some m) : m ∈ l := by
  induction l with
  | nil => simp [heap_min] at h
  | cons b rest ih =>
      simp only [heap_min] at h
      cases hr : heap_min rest with
      | none =>
          rw [hr] at h
          dsimp only at h
          simp only [Option.some.injEq] at h
          subst h
          exact List.mem_cons_self b rest
      | some m' =>
          rw [hr] at h
          dsimp only at h
          by_cases hk : key_lt m' b = true
          · rw [if_pos hk] at h
            simp only [Option.some.injEq] at h
            rw [h] at hr
            exact List.mem_cons_of_mem b (ih hr)
          · rw [if_neg hk] at h
            simp only [Option.some.injEq] at h
            subst h
            exact List.mem_cons_self b rest

theorem heap_min_eq_none_iff (l : List BookOrder) :
    heap_min l = none ↔ l = [] := by
  cases l with
  | nil => simp [heap_min]
  | cons b rest =>
      simp only [heap_min]
      cases heap_min rest with
      | none => simp
      | some m' => by_cases h : key_lt m' b = true <;> simp [h]

theorem heap_min_not_lt {l : List BookOrder} :
    ∀ {m : BookOrder}, heap_min l = some m → ∀ x ∈ l, key_lt x m = false := by
  induction l with
  | nil => intro m h x hx; cases hx
  | cons b rest ih =>
      intro m h x hx
      simp only [heap_min] at h
      cases hr : heap_min rest with
      | none =>
          rw [hr] at h
          dsimp only at h
          simp only [Option.some.injEq] at h
          subst h
          rcases List.mem_cons.mp hx with hx | hx
          · subst hx; exact key_lt_irrefl x
          · have hnil : rest = [] := (heap_min_eq_none_iff rest).mp hr
            subst hnil
            cases hx
      | some m' =>
          rw [hr] at h
          dsimp only at h
          by_cases hk : key_lt m' b = true
          · rw [if_pos hk] at h
            simp only [Option.some.injEq] at h
            subst h
            rcases List.mem_cons.mp hx with hx | hx
            · subst hx; exact key_lt_asymm hk
            · exact ih hr x hx
          · rw [if_neg hk] at h
            simp only [Option.some.injEq] at h
            subst h
            rcases List.mem_cons.mp hx with hx | hx
            · subst hx; exact key_lt_irrefl x
            · exact key_not_lt_trans (ih hr x hx)
                (Bool.not_eq_true _ ▸ hk)

theorem live_entries_erase (c : List String) (l : List BookOrder)
    (m : BookOrder) (hm : m ∈ l) (hc : c.contains m.order_id = true) :
    live_entries c (l.erase m) = live_entries c l := by
  obtain ⟨l1, l2, _, heq, herase⟩ := List.exists_erase_eq hm
  rw [herase, heq]
  unfold live_entries
  rw [List.filter_append, List.filter_append, List.filter_cons]
  have hmm : m.order_id ∈ c := by simpa using hc
  simp [hmm]

theorem clean_go_live (c : List String) :
    ∀ (fuel : ℕ) (l : List BookOrder), l.length ≤ fuel →
      live_entries c (clean_go c fuel l) = live_entries c l := by
  intro fuel
  induction fuel with
  | zero => intro l _; rfl
  | succ fuel ih =>
      intro l hlen
      unfold clean_go
      cases hm : heap_min l with
      | none => rfl
      | some m =>
          dsimp only
          by_cases hc : c.contains m.order_id = true
          · rw [if_pos hc]
            have hmem := heap_min_mem hm
            have hlen1 : (l.erase m).length = l.length - 1 :=
              List.length_erase_of_mem hmem
            have hlen2 : 0 < l.length :=
              List.length_pos.mpr (List.ne_nil_of_mem hmem)
            rw [ih (l.erase m) (by omega), live_entries_erase c l m hmem hc]
          · rw [if_neg hc]

theorem clean_go_top_not_cancelled (c : List String) :
    ∀ (fuel : ℕ) (l : List BookOrder), l.length ≤ fuel →
      ∀ m, heap_min (clean_go c fuel l) = some m →
        c.contains m.order_id = false := by
  intro fuel
  induction fuel with
  | zero =>
      intro l hlen m hm
      have hnil : l = [] := List.eq_nil_of_length_eq_zero (Nat.le_zero.mp hlen)
      subst hnil
      simp [clean_go, heap_min] at hm
  | succ fuel ih =>
      intro l hlen m hm
      unfold clean_go at hm
      cases hm0 : heap_min l with
      | none =>
          rw [hm0] at hm
          dsimp only at hm
          rw [hm0] at hm
          cases hm
      | some m0 =>
          rw [hm0] at hm
          dsimp only at hm
          by_cases hc : c.contains m0.order_id = true
          · rw [if_pos hc] at hm
            have hmem := heap_min_mem hm0
            have hlen1 : (l.erase m0).length = l.length - 1 :=
              List.length_erase_of_mem hmem
            have hlen2 : 0 < l.length :=
              List.length_pos.mpr (List.ne_nil_of_mem hmem)
            exact ih (l.erase m0) (by omega) m hm
          · rw [if_neg hc] at hm
            rw [hm0] at hm
            injection hm with hm
            subst hm
            simpa using hc

theorem clean_top_live (c : List String) (l : List BookOrder) :
    live_entries c (clean_top c l) = live_entries c l :=
  clean_go_live c l.length l le_rfl

theorem clean_top_not_cancelled (c : List String) (l : List BookOrder) :
    ∀ m, heap_min (clean_top c l) = some m →
      c.contains m.order_id = false :=
  clean_go_top_not_cancelled c l.length l le_rfl

/-- The head exposed after cleaning: absent exactly when no live entry
remains, and otherwise a live entry that no live entry beats in the
`(priority_price, timestamp)` order. -/
theorem clean_top_min (c : List String) (l : List BookOrder) :
    (heap_min (clean_top c l) = none → live_entries c l = []) ∧
      (∀ m, heap_min (clean_top c l) = some m →
        m ∈ live_entries c l ∧
          ∀ x ∈ live_entries c l, key_lt x m = false) := by
  constructor
  · intro h
    have hnil := (heap_min_eq_none_iff _).mp h
    rw [← clean_top_live c l, hnil]
    rfl
  · intro m hm
    have hnc := clean_top_not_cancelled c l m hm
    have hmem := heap_min_mem hm
    have hmlive : m ∈ live_entries c (clean_top c l) := by
      unfold live_entries
      rw [List.mem_filter]
      refine ⟨hmem, ?_⟩
      have hmm : m.order_id ∉ c := by simpa using hnc
      simp [hmm]
    constructor
    · rw [← clean_top_live c l]
      exact hmlive
    · intro x hx
      have hx' : x ∈ clean_top c l := by
        rw [← clean_top_live c l] at hx
        exact List.mem_of_mem_filter hx
      exact heap_min_not_lt hm x hx'

/-- Along any call sequence, bid entries carry the negated order price and
ask entries the order price (the heap encodings of `add_order`). -/
theorem book_run_pp (ops : List BookOp) :
    ∀ st : OrderBookState,
      (∀ e ∈ st.bids, e.priority_price = -e.order.price) →
      (∀ e ∈ st.asks, e.priority_price = e.order.price) →
      (∀ e ∈ (book_run st ops).bids, e.priority_price = -e.order.price) ∧
        (∀ e ∈ (book_run st ops).asks, e.priority_price = e.order.price) := by
  induction ops with
  | nil => intro st hb ha; exact ⟨hb, ha⟩
  | cons op rest ih =>
      intro st hb ha
      rw [show book_run st (op :: rest) = book_run (book_step st op) rest
        from rfl]
      apply ih
      · cases op with
        | add o ts =>
            unfold book_step OrderBookState.add_order
            dsimp only
            by_cases hq : o.quantity > 0
            · rw [if_pos hq]
              intro e he
              rcases List.mem_append.mp he with he | he
              · exact hb e he
              · rw [List.mem_singleton.mp he]
            · rw [if_neg hq]
              exact hb
        | cancel oid =>
            unfold book_step OrderBookState.cancel_order
            dsimp only
            cases alookup st.orders oid <;> exact hb
      · cases op with
        | add o ts =>
            unfold book_step OrderBookState.add_order
            dsimp only
            by_cases hq : o.quantity > 0
            · rw [if_pos hq]
              exact ha
            · rw [if_neg hq]
              intro e he
              rcases List.mem_append.mp he with he | he
              · exact ha e he
              · rw [List.mem_singleton.mp he]
        | cancel oid =>
            unfold book_step OrderBookState.cancel_order
            dsimp only
            cases alookup st.orders oid <;> exact ha

/-- C6: after any interleaving of `add_order` and `cancel_order` calls with
strictly increasing admission stamps, `get_best_bid` is `None` exactly when
no live bid entry remains and otherwise returns the maximum live bid
price, `get_best_ask` symmetrically returns the minimum live ask price,
and the entry at the head of each side carries the earliest stamp among
live entries of its price. -/
theorem c6_price_time_priority (sym : String) (ops : List BookOp)
    (st : OrderBookState) (hst : st = book_run (OrderBookState.mk0 sym) ops)
    (hts : List.Chain' (· < ·) (add_times ops)) :
    ((st.get_best_bid.1 = none ↔
        live_entries st.cancelled_ids st.bids = []) ∧
      (∀ m, heap_min (clean_top st.cancelled_ids st.bids) = some m →
        m ∈ live_entries st.cancelled_ids st.bids ∧
          st.get_best_bid.1 = some m.order.price ∧
          (∀ e ∈ live_entries st.cancelled_ids st.bids,
            e.order.price ≤ m.order.price) ∧
          (∀ e ∈ live_entries st.cancelled_ids st.bids,
            e.order.price = m.order.price → m.timestamp ≤ e.timestamp))) ∧
      ((st.get_best_ask.1 = none ↔
        live_entries st.cancelled_ids st.asks = []) ∧
      (∀ m, heap_min (clean_top st.cancelled_ids st.asks) = some m →
        m ∈ live_entries st.cancelled_ids st.asks ∧
          st.get_best_ask.1 = some m.order.price ∧
          (∀ e ∈ live_entries st.cancelled_ids st.asks,
            m.order.price ≤ e.order.price) ∧
          (∀ e ∈ live_entries st.cancelled_ids st.asks,
            e.order.price = m.order.price → m.timestamp ≤ e.timestamp))) := by
  have hpp := book_run_pp ops (OrderBookState.mk0 sym)
    (by intro e he; cases he) (by intro e he; cases he)
  rw [← hst] at hpp
  obtain ⟨hppb, hppa⟩ := hpp
  constructor
  · constructor
    · unfold OrderBookState.get_best_bid
      dsimp only
      constructor
      · intro h
        rw [Option.map_eq_none'] at h
        exact (clean_top_min st.cancelled_ids st.bids).1 h
      · intro h
        rw [Option.map_eq_none']
        cases hm : heap_min (clean_top st.cancelled_ids st.bids) with
        | none => rfl
        | some m =>
            have := ((clean_top_min st.cancelled_ids st.bids).2 m hm).1
            rw [h] at this
            cases this
    · intro m hm
      obtain ⟨hmem, hmin⟩ :=
        (clean_top_min st.cancelled_ids st.bids).2 m hm
      have hmbids : m ∈ st.bids := List.mem_of_mem_filter hmem
      refine ⟨hmem, ?_, ?_, ?_⟩
      · unfold OrderBookState.get_best_bid
        dsimp only
        rw [hm]
        show some (-m.priority_price) = some m.order.price
        rw [hppb m hmbids, neg_neg]
      · intro e he
        have hebids : e ∈ st.bids := List.mem_of_mem_filter he
        have hkey := (key_lt_eq_false_iff e m).mp (hmin e he)
        have hppe := hppb e hebids
        have hppm := hppb m hmbids
        rcases hkey with hk | ⟨hk, _⟩
        · rw [hppe, hppm] at hk
          linarith
        · rw [hppe, hppm] at hk
          linarith [le_of_eq hk]
      · intro e he hep
        have hebids : e ∈ st.bids := List.mem_of_mem_filter he
        have hkey := (key_lt_eq_false_iff e m).mp (hmin e he)
        have hppe := hppb e hebids
        have hppm := hppb m hmbids
        rcases hkey with hk | ⟨_, hk⟩
        · rw [hppe, hppm, hep] at hk
          exact absurd hk (lt_irrefl _)
        · exact hk
  · constructor
    · unfold OrderBookState.get_best_ask
      dsimp only
      constructor
      · intro h
        rw [Option.map_eq_none'] at h
        exact (clean_top_min st.cancelled_ids st.asks).1 h
      · intro h
        rw [Option.map_eq_none']
        cases hm : heap_min (clean_top st.cancelled_ids st.asks) with
        | none => rfl
        | some m =>
            have := ((clean_top_min st.cancelled_ids st.asks).2 m hm).1
            rw [h] at this
            cases this
    · intro m hm
      obtain ⟨hmem, hmin⟩ :=
        (clean_top_min st.cancelled_ids st.asks).2 m hm
      have hmasks : m ∈ st.asks := List.mem_of_mem_filter hmem
      refine ⟨hmem, ?_, ?_, ?_⟩
      · unfold OrderBookState.get_best_ask
        dsimp only
        rw [hm]
        show some m.priority_price = some m.order.price
        rw [hppa m hmasks]
      · intro e he
        have heasks : e ∈ st.asks := List.mem_of_mem_filter he
        have hkey := (key_lt_eq_false_iff e m).mp (hmin e he)
        have hppe := hppa e heasks
        have hppm := hppa m hmasks
        rcases hkey with hk | ⟨hk, _⟩
        · rw [hppe, hppm] at hk
          linarith
        · rw [hppe, hppm] at hk
          linarith [le_of_eq hk]
      · intro e he hep
        have heasks : e ∈ st.asks := List.mem_of_mem_filter he
        have hkey := (key_lt_eq_false_iff e m).mp (hmin e he)
        have hppe := hppa e heasks
        have hppm := hppa m hmasks
        rcases hkey with hk | ⟨_, hk⟩
        · rw [hppe, hppm, hep] at hk
          exact absurd hk (lt_irrefl _)
        · exact hk

/-- A concrete interleaving: two bids, one ask, then cancel the better
bid. -/
def c6_ops : List BookOp :=
  [BookOp.add ⟨"S", 10, 100, PyOrderStatus.PENDING, none, 0⟩ 1,
   BookOp.add ⟨"S", 5, 101, PyOrderStatus.PENDING, none, 0⟩ 2,
   BookOp.add ⟨"S", -5, 103, PyOrderStatus.PENDING, none, 0⟩ 3,
   BookOp.cancel "S_1"]

/-- The book after the concrete interleaving. -/
def c6_st : OrderBookState := book_run (OrderBookState.mk0 "S") c6_ops

/-- C6 witness: the priority statement instantiated on the concrete
interleaving (whose admission stamps 1, 2, 3 strictly increase). -/
theorem c6_witness :
    ((c6_st.get_best_bid.1 = none ↔
        live_entries c6_st.cancelled_ids c6_st.bids = []) ∧
      (∀ m, heap_min (clean_top c6_st.cancelled_ids c6_st.bids) = some m →
        m ∈ live_entries c6_st.cancelled_ids c6_st.bids ∧
          c6_st.get_best_bid.1 = some m.order.price ∧
          (∀ e ∈ live_entries c6_st.cancelled_ids c6_st.bids,
            e.order.price ≤ m.order.price) ∧
          (∀ e ∈ live_entries c6_st.cancelled_ids c6_st.bids,
            e.order.price = m.order.price → m.timestamp ≤ e.timestamp))) ∧
      ((c6_st.get_best_ask.1 = none ↔
        live_entries c6_st.cancelled_ids c6_st.asks = []) ∧
      (∀ m, heap_min (clean_top c6_st.cancelled_ids c6_st.asks) = some m →
        m ∈ live_entries c6_st.cancelled_ids c6_st.asks ∧
          c6_st.get_best_ask.1 = some m.order.price ∧
          (∀ e ∈ live_entries c6_st.cancelled_ids c6_st.asks,
            m.order.price ≤ e.order.price) ∧
          (∀ e ∈ live_entries c6_st.cancelled_ids c6_st.asks,
            e.order.price = m.order.price → m.timestamp ≤ e.timestamp))) :=
  c6_price_time_priority "S" c6_ops c6_st rfl
    (by
      simp only [c6_ops, add_times]
      refine List.chain'_cons.mpr ⟨by norm_num,
        List.chain'_cons.mpr ⟨by norm_num, List.chain'_singleton _⟩⟩)

/-- A portfolio rich enough that solvency never rejects. -/
def c9_p : PortfolioState := ⟨1000, []⟩

/-- A one-share buy at price 1. -/
def c9_o : PyOrder := ⟨"AAPL", 1, 1, PyOrderStatus.PENDING, none, 0⟩

/-- An order manager capped at 1 order per minute. -/
def c9_om : OMState := OMState.mk0 1 none none

/-- Two validate calls at the same instant, with no record calls. -/
def c9_evs : List OMEv := [OMEv.vald c9_p c9_o 0, OMEv.vald c9_p c9_o 0]

/-- C9 counterexample: with `max_orders_per_minute = 1`, an interleaving of
two `validate_order` calls and no `record_order` calls passes both
validations inside one 60-second window — `validate_order` alone never
records a timestamp, so the claim over arbitrary interleavings fails. -/
theorem c9_counterexample :
    (pass_times c9_om c9_evs).countP
        (fun x => decide (0 ≤ x) && decide (x ≤ 60)) = 2 ∧
      c9_om.max_orders_per_minute = 1 := by
  constructor
  · norm_num [c9_evs, c9_om, c9_p, c9_o, pass_times, om_passes, om_step,
      OMState.mk0, OMState.validate_order, OMState.check_rate_limit,
      PortfolioState.can_execute_order, PortfolioState.get_holding, alookup,
      opt_truthy, OMEv.time, List.countP_cons, List.countP_nil]
  · rfl

/-- Count of deque entries at or after the window start `c`. -/
def cge (c : ℚ) (l : List ℚ) : ℕ := l.countP (fun x => decide (c ≤ x))

theorem cge_append (c : ℚ) (l1 l2 : List ℚ) :
    cge c (l1 ++ l2) = cge c l1 + cge c l2 := List.countP_append _ _ _

theorem cge_dropWhile_lt (c t : ℚ) (ts : List ℚ) (h : t - 60 ≤ c) :
    cge c (ts.dropWhile (fun x => decide (x < t - 60))) = cge c ts := by
  conv_rhs =>
    rw [← List.takeWhile_append_dropWhile
      (fun x => decide (x < t - 60)) ts]
  rw [cge_append]
  have hz : cge c (ts.takeWhile (fun x => decide (x < t - 60))) = 0 := by
    rw [cge, List.countP_eq_zero]
    intro a ha
    have := List.mem_takeWhile_imp ha
    simp only [decide_eq_true_eq] at this ⊢
    linarith
  omega

theorem deque_append_of_lt (N : ℕ) (ts : List ℚ) (t : ℚ)
    (h : ts.length < N) : deque_append N ts t = ts ++ [t] := by
  unfold deque_append
  rw [show ts.length + 1 - N = 0 from by omega, List.drop_zero]

theorem deque_append_length (N : ℕ) (ts : List ℚ) (t : ℚ)
    (h : ts.length ≤ N) : (deque_append N ts t).length ≤ N := by
  unfold deque_append
  rw [List.length_drop, List.length_append]
  simp only [List.length_singleton]
  omega

theorem deque_append_subset (N : ℕ) (ts : List ℚ) (t : ℚ) :
    ∀ x ∈ deque_append N ts t, x ∈ ts ++ [t] := by
  intro x hx
  exact (List.drop_subset _ _) hx

theorem deque_append_sorted (N : ℕ) (ts : List ℚ) (t : ℚ)
    (hsort : ts.Sorted (· ≤ ·)) (hle : ∀ x ∈ ts, x ≤ t) :
    (deque_append N ts t).Sorted (· ≤ ·) := by
  have happ : (ts ++ [t]).Sorted (· ≤ ·) := by
    apply List.pairwise_append.mpr
    refine ⟨hsort, List.sorted_singleton t, ?_⟩
    intro x hx y hy
    rw [List.mem_singleton.mp hy]
    exact hle x hx
  exact happ.sublist (List.drop_sublist _ _)

/-- Appending to the bounded deque never loses window-relevant capacity:
the capped count of entries at or after `c` does not decrease (dropping
the oldest entry only happens at capacity, when either the dropped entry
is stale or the deque is entirely inside the window). -/
theorem cge_deque_append (N : ℕ) (ts : List ℚ) (t c : ℚ)
    (hsort : ts.Sorted (· ≤ ·)) (hle : ∀ x ∈ ts, x ≤ t)
    (hlen : ts.length ≤ N) :
    min N (cge c ts) ≤ min N (cge c (deque_append N ts t)) := by
  by_cases hlt : ts.length < N
  · rw [deque_append_of_lt N ts t hlt, cge_append]
    exact min_le_min le_rfl (Nat.le_add_right _ _)
  · have heq : ts.length = N := by omega
    cases ts with
    | nil =>
        simp only [List.length_nil] at heq
        subst heq
        simp [cge]
    | cons h ts1 =>
        have hN : N = ts1.length + 1 := by
          simp only [List.length_cons] at heq
          omega
        have hdeq : deque_append N (h :: ts1) t = ts1 ++ [t] := by
          unfold deque_append
          rw [show (h :: ts1).length + 1 - N = 1 from by
            simp only [List.length_cons]; omega]
          rfl
        rw [hdeq]
        have hmin : ∀ x ∈ ts1, h ≤ x := List.rel_of_sorted_cons hsort
        by_cases hch : c ≤ h
        · have hall : cge c (h :: ts1) = N := by
            have hcl : cge c (h :: ts1) = (h :: ts1).length := by
              rw [cge, List.countP_eq_length]
              intro a ha
              rcases List.mem_cons.mp ha with ha | ha
              · subst ha; simpa using hch
              · simp only [decide_eq_true_eq]
                exact le_trans hch (hmin a ha)
            rw [hcl, heq]
          have hall2 : cge c (ts1 ++ [t]) = N := by
            have hcl : cge c (ts1 ++ [t]) = (ts1 ++ [t]).length := by
              rw [cge, List.countP_eq_length]
              intro a ha
              rcases List.mem_append.mp ha with ha | ha
              · simp only [decide_eq_true_eq]
                exact le_trans hch (hmin a ha)
              · rw [List.mem_singleton.mp ha]
                simp only [decide_eq_true_eq]
                exact le_trans hch (hle h (List.mem_cons_self _ _))
            rw [hcl, List.length_append]
            simp only [List.length_singleton]
            omega
          rw [hall, hall2]
        · have hskip : cge c (h :: ts1) = cge c ts1 := by
            rw [cge, List.countP_cons_of_neg]
            · rfl
            · simpa using hch
          rw [hskip, cge_append]
          exact min_le_min le_rfl (Nat.le_add_right _ _)

/-- `validate_order` either leaves the order manager untouched (solvency
rejection) or leaves exactly the pruned timestamp deque behind. -/
theorem validate_order_state (st : OMState) (p : PortfolioState)
    (o : PyOrder) (t : ℚ) :
    (st.validate_order p o t).2 = st ∨
      (st.validate_order p o t).2 =
        { st with order_timestamps :=
            st.order_timestamps.dropWhile (fun x => decide (x < t - 60)) } := by
  unfold OMState.validate_order OMState.check_rate_limit
  dsimp only
  split_ifs <;> first | (left; rfl) | (right; rfl)

/-- `record_order` appends the stamp to the bounded deque of timestamps. -/
theorem record_order_timestamps (s : OMState) (oid : ℕ) (o : PyOrder)
    (t : ℚ) : (s.record_order oid o t).order_timestamps =
      deque_append s.max_orders_per_minute s.order_timestamps t := rfl

/-- A passing `validate_order` call leaves the pruned deque, whose length
is strictly below the cap. -/
theorem validate_order_pass (st : OMState) (p : PortfolioState)
    (o : PyOrder) (t : ℚ)
    (h : ((st.validate_order p o t).1).1 = true) :
    (st.validate_order p o t).2 =
        { st with order_timestamps :=
            st.order_timestamps.dropWhile (fun x => decide (x < t - 60)) } ∧
      (st.order_timestamps.dropWhile
          (fun x => decide (x < t - 60))).length <
        st.max_orders_per_minute := by
  unfold OMState.validate_order OMState.check_rate_limit at h ⊢
  dsimp only at h ⊢
  split_ifs at h ⊢ with h1 h2 h3 h4
  all_goals try cases h
  refine ⟨rfl, ?_⟩
  simpa using h2

/-- Every `OrderManager` call preserves the configured cap. -/
theorem om_step_cap (st : OMState) (e : OMEv) :
    (om_step st e).max_orders_per_minute = st.max_orders_per_minute := by
  cases e with
  | vald p o t =>
      rcases validate_order_state st p o t with h | h <;>
        simp [om_step, h]
  | record oid o t => rfl

/-- First half of the amended C9: `validate_order` rejects whenever the cap
is covered by tracked timestamps at most 60 seconds old, regardless of any
other state; the stated reason is the rate-limit reason whenever the
solvency check that the source runs first lets the order through. -/
theorem validate_order_rejects_full_window (st : OMState)
    (p : PortfolioState) (o : PyOrder) (t : ℚ)
    (h : st.max_orders_per_minute ≤
      st.order_timestamps.countP (fun x => decide (t - 60 ≤ x))) :
    ((st.validate_order p o t).1).1 = false ∧
      (p.can_execute_order o = true →
        (st.validate_order p o t).1 = (false, VReason.rate_limit)) := by
  unfold OMState.validate_order OMState.check_rate_limit
  dsimp only
  have hcount : st.max_orders_per_minute ≤
      (st.order_timestamps.dropWhile
        (fun x => decide (x < t - 60))).length := by
    have hsplit := List.takeWhile_append_dropWhile
      (fun x => decide (x < t - 60)) st.order_timestamps
    have hcz : (st.order_timestamps.takeWhile
        (fun x => decide (x < t - 60))).countP
        (fun x => decide (t - 60 ≤ x)) = 0 := by
      rw [List.countP_eq_zero]
      intro a ha
      have := List.mem_takeWhile_imp ha
      simp only [decide_eq_true_eq] at this ⊢
      linarith
    have hc2 : st.order_timestamps.countP (fun x => decide (t - 60 ≤ x)) =
        (st.order_timestamps.takeWhile
          (fun x => decide (x < t - 60))).countP
          (fun x => decide (t - 60 ≤ x)) +
        (st.order_timestamps.dropWhile
          (fun x => decide (x < t - 60))).countP
          (fun x => decide (t - 60 ≤ x)) := by
      conv_lhs => rw [← hsplit]
      exact List.countP_append _ _ _
    have hc3 : (st.order_timestamps.dropWhile
        (fun x => decide (x < t - 60))).countP
        (fun x => decide (t - 60 ≤ x)) ≤
        (st.order_timestamps.dropWhile
          (fun x => decide (x < t - 60))).length :=
      List.countP_le_length _
    omega
  split_ifs with h1 h2 h3 h4
  all_goals
    first
    | exact ⟨rfl, fun hc => absurd hc h1⟩
    | exact ⟨rfl, fun _ => rfl⟩
    | (exfalso
       simp only [decide_eq_true_eq] at h2
       omega)

/-- Main induction for the rate-limit window bound: starting from a sorted,
within-capacity deque whose entries precede all upcoming calls, a
disciplined, time-monotone call sequence confined to the window
`(−∞, c+60]` admits at most `N − min N (count of deque entries ≥ c)`
passing validations at instants ≥ c. -/
theorem rl_invariant (c : ℚ) (N : ℕ) :
    ∀ (n : ℕ) (es : List OMEv) (st : OMState), es.length ≤ n →
      st.max_orders_per_minute = N →
      st.order_timestamps.Sorted (· ≤ ·) →
      st.order_timestamps.length ≤ N →
      (∀ x ∈ st.order_timestamps, ∀ e ∈ es, x ≤ OMEv.time e) →
      (es.map OMEv.time).Sorted (· ≤ ·) →
      (∀ e ∈ es, OMEv.time e ≤ c + 60) →
      disciplined st es = true →
      min N (cge c st.order_timestamps) +
        (pass_times st es).countP (fun x => decide (c ≤ x)) ≤ N := by
  intro n
  induction n with
  | zero =>
      intro es st hlen _ _ _ _ _ _ _
      have hnil : es = [] :=
        List.eq_nil_of_length_eq_zero (Nat.le_zero.mp hlen)
      subst hnil
      simp only [pass_times, List.countP_nil, Nat.add_zero]
      exact min_le_left _ _
  | succ n ih =>
      intro es st hlen hN hsort hcap hbelow hmono hwin hdis
      cases es with
      | nil =>
          simp only [pass_times, List.countP_nil, Nat.add_zero]
          exact min_le_left _ _
      | cons e rest =>
        cases e with
        | record oid o t =>
            have hptr : pass_times st (OMEv.record oid o t :: rest) =
                pass_times (st.record_order oid o t) rest := rfl
            have hle_t : ∀ x ∈ st.order_timestamps, x ≤ t := fun x hx =>
              hbelow x hx _ (List.mem_cons_self _ _)
            have htrest : ∀ e' ∈ rest, t ≤ OMEv.time e' := by
              intro e' he'
              exact List.rel_of_sorted_cons hmono _
                (List.mem_map_of_mem OMEv.time he')
            have hstep :=
              ih rest (st.record_order oid o t)
                (by simpa using Nat.le_of_succ_le_succ hlen)
                (by simpa [OMState.record_order] using hN)
                (by
                  simp only [OMState.record_order]
                  rw [hN]
                  exact deque_append_sorted N _ t hsort hle_t)
                (by
                  simp only [OMState.record_order]
                  rw [hN]
                  exact deque_append_length N _ t (hN ▸ hcap))
                (by
                  intro x hx e' he'
                  simp only [OMState.record_order] at hx
                  rcases List.mem_append.mp
                    (deque_append_subset _ _ _ x hx) with hx | hx
                  · exact hbelow x hx e' (List.mem_cons_of_mem _ he')
                  · rw [List.mem_singleton.mp hx]
                    exact htrest e' he')
                ((List.sorted_cons.mp hmono).2)
                (fun e' he' => hwin e' (List.mem_cons_of_mem _ he'))
                hdis
            rw [hptr]
            have hmono2 : min N (cge c st.order_timestamps) ≤
                min N (cge c
                  (st.record_order oid o t).order_timestamps) := by
              simp only [OMState.record_order]
              rw [hN]
              exact cge_deque_append N _ t c hsort hle_t (hN ▸ hcap)
            omega
        | vald p o t =>
            simp only [disciplined] at hdis
            rw [Bool.and_eq_true] at hdis
            obtain ⟨hd1, hd2⟩ := hdis
            have hle_t : ∀ x ∈ st.order_timestamps, x ≤ t := fun x hx =>
              hbelow x hx _ (List.mem_cons_self _ _)
            have htrest : ∀ e' ∈ rest, t ≤ OMEv.time e' := by
              intro e' he'
              exact List.rel_of_sorted_cons hmono _
                (List.mem_map_of_mem OMEv.time he')
            have htwin : t ≤ c + 60 := hwin _ (List.mem_cons_self _ _)
            by_cases hpass : ((st.validate_order p o t).1).1 = true
            · obtain ⟨hst1, hlen1⟩ := validate_order_pass st p o t hpass
              rw [if_pos hpass] at hd1
              cases rest with
              | nil => cases hd1
              | cons e2 rest' =>
                cases e2 with
                | vald _ _ _ => cases hd1
                | record oid2 o2 t2 =>
                    have ht2 : t2 = t := by simpa using hd1
                    subst ht2
                    have hpt2 : pass_times st
                        (OMEv.vald p o t2 ::
                          OMEv.record oid2 o2 t2 :: rest') =
                        t2 :: pass_times
                          ((st.validate_order p o t2).2.record_order
                            oid2 o2 t2) rest' := by
                      simp only [pass_times, om_passes, om_step, hpass,
                        if_true, OMEv.time]
                      rfl
                    rw [hpt2]
                    have hlen1N : (st.order_timestamps.dropWhile
                        (fun x => decide (x < t2 - 60))).length < N := by
                      rw [← hN]; exact hlen1
                    have hsort1 : (st.order_timestamps.dropWhile
                        (fun x => decide (x < t2 - 60))).Sorted (· ≤ ·) :=
                      hsort.sublist (List.dropWhile_sublist _)
                    have hsub1 : ∀ x ∈ st.order_timestamps.dropWhile
                        (fun x => decide (x < t2 - 60)),
                        x ∈ st.order_timestamps := by
                      intro x hx
                      exact (List.dropWhile_sublist _).subset hx
                    have hle1 : ∀ x ∈ st.order_timestamps.dropWhile
                        (fun x => decide (x < t2 - 60)), x ≤ t2 :=
                      fun x hx => hle_t x (hsub1 x hx)
                    have hmax1 : ((st.validate_order p o
                        t2).2).max_orders_per_minute = N := by
                      rw [hst1]; exact hN
                    have hts1e : ((st.validate_order p o
                        t2).2).order_timestamps =
                        st.order_timestamps.dropWhile
                          (fun x => decide (x < t2 - 60)) := by
                      rw [hst1]
                    have hts2 : ((st.validate_order p o t2).2.record_order
                        oid2 o2 t2).order_timestamps =
                        st.order_timestamps.dropWhile
                          (fun x => decide (x < t2 - 60)) ++ [t2] := by
                      rw [record_order_timestamps, hmax1, hts1e]
                      exact deque_append_of_lt N _ t2 hlen1N
                    have hdis2 : disciplined
                        ((st.validate_order p o t2).2.record_order
                          oid2 o2 t2) rest' = true := hd2
                    have hstep := ih rest'
                      ((st.validate_order p o t2).2.record_order oid2 o2 t2)
                      (by
                        simp only [List.length_cons] at hlen
                        omega)
                      hmax1
                      (by
                        rw [hts2]
                        apply List.pairwise_append.mpr
                        refine ⟨hsort1, List.sorted_singleton t2, ?_⟩
                        intro x hx y hy
                        rw [List.mem_singleton.mp hy]
                        exact hle1 x hx)
                      (by
                        rw [hts2, List.length_append]
                        simp only [List.length_singleton]
                        omega)
                      (by
                        intro x hx e' he'
                        rw [hts2] at hx
                        rcases List.mem_append.mp hx with hx | hx
                        · exact hbelow x (hsub1 x hx) e'
                            (List.mem_cons_of_mem _
                              (List.mem_cons_of_mem _ he'))
                        · rw [List.mem_singleton.mp hx]
                          exact htrest e' (List.mem_cons_of_mem _ he'))
                      (((List.sorted_cons.mp
                        ((List.sorted_cons.mp hmono).2)).2))
                      (fun e' he' => hwin e' (List.mem_cons_of_mem _
                        (List.mem_cons_of_mem _ he')))
                      hdis2
                    have hcge1 : cge c (st.order_timestamps.dropWhile
                        (fun x => decide (x < t2 - 60))) =
                        cge c st.order_timestamps :=
                      cge_dropWhile_lt c t2 _ (by linarith)
                    have hcge3 : cge c (st.order_timestamps.dropWhile
                        (fun x => decide (x < t2 - 60))) ≤
                        (st.order_timestamps.dropWhile
                          (fun x => decide (x < t2 - 60))).length :=
                      List.countP_le_length _
                    have hcgets2 : cge c (((st.validate_order p o
                        t2).2.record_order oid2 o2
                        t2).order_timestamps) =
                        cge c st.order_timestamps +
                          (if c ≤ t2 then 1 else 0) := by
                      rw [hts2, cge_append, hcge1]
                      congr 1
                      by_cases hct : c ≤ t2
                      · simp [cge, hct]
                      · simp [cge, hct]
                    rw [List.countP_cons]
                    simp only [decide_eq_true_eq]
                    by_cases hct : c ≤ t2
                    · rw [if_pos hct]
                      rw [hcgets2] at hstep
                      rw [if_pos hct] at hstep
                      omega
                    · rw [if_neg hct]
                      rw [hcgets2] at hstep
                      rw [if_neg hct] at hstep
                      omega
            · have hpf : ((st.validate_order p o t).1).1 = false := by
                simpa using hpass
              have hpt : pass_times st (OMEv.vald p o t :: rest) =
                  pass_times ((st.validate_order p o t).2) rest := by
                simp only [pass_times, om_passes, om_step, hpf]
                rfl
              rw [hpt]
              have hd2' : disciplined ((st.validate_order p o t).2) rest =
                  true := hd2
              rcases validate_order_state st p o t with hstx | hstx
              · rw [hstx] at hd2' ⊢
                exact ih rest st
                  (by simpa using Nat.le_of_succ_le_succ hlen)
                  hN hsort hcap
                  (fun x hx e' he' =>
                    hbelow x hx e' (List.mem_cons_of_mem _ he'))
                  ((List.sorted_cons.mp hmono).2)
                  (fun e' he' => hwin e' (List.mem_cons_of_mem _ he'))
                  hd2'
              · have hsort1 : (st.order_timestamps.dropWhile
                    (fun x => decide (x < t - 60))).Sorted (· ≤ ·) :=
                  hsort.sublist (List.dropWhile_sublist _)
                have hsub1 : ∀ x ∈ st.order_timestamps.dropWhile
                    (fun x => decide (x < t - 60)),
                    x ∈ st.order_timestamps := by
                  intro x hx
                  exact (List.dropWhile_sublist _).subset hx
                have hcge1 : cge c (st.order_timestamps.dropWhile
                    (fun x => decide (x < t - 60))) =
                    cge c st.order_timestamps :=
                  cge_dropWhile_lt c t _ (by linarith)
                have hmax1 : ((st.validate_order p o
                    t).2).max_orders_per_minute = N := by
                  rw [hstx]; exact hN
                have hts1e : ((st.validate_order p o
                    t).2).order_timestamps =
                    st.order_timestamps.dropWhile
                      (fun x => decide (x < t - 60)) := by
                  rw [hstx]
                have hstep := ih rest ((st.validate_order p o t).2)
                  (by simpa using Nat.le_of_succ_le_succ hlen)
                  hmax1
                  (by rw [hts1e]; exact hsort1)
                  (by
                    rw [hts1e]
                    exact le_trans (List.Sublist.length_le
                      (List.dropWhile_sublist _)) hcap)
                  (by
                    intro x hx e' he'
                    rw [hts1e] at hx
                    exact hbelow x (hsub1 x hx) e'
                      (List.mem_cons_of_mem _ he'))
                  ((List.sorted_cons.mp hmono).2)
                  (fun e' he' => hwin e' (List.mem_cons_of_mem _ he'))
                  hd2'
                rw [hts1e, hcge1] at hstep
                exact hstep

/-- `pass_times` distributes over concatenation of call sequences. -/
theorem pass_times_append (st : OMState) (l1 l2 : List OMEv) :
    pass_times st (l1 ++ l2) =
      pass_times st l1 ++ pass_times (om_run st l1) l2 := by
  induction l1 generalizing st with
  | nil => rfl
  | cons e tl ih =>
      simp only [List.cons_append, pass_times, om_run, List.append_eq, ih,
        List.append_assoc]

/-- Every passing time is the instant of some call of the sequence. -/
theorem pass_times_mem :
    ∀ (es : List OMEv) (st : OMState), ∀ x ∈ pass_times st es,
      x ∈ es.map OMEv.time := by
  intro es
  induction es with
  | nil => intro st x hx; cases hx
  | cons e tl ih =>
      intro st x hx
      simp only [pass_times, List.mem_append] at hx
      simp only [List.map_cons]
      rcases hx with hx | hx
      · by_cases hp : om_passes st e = true
        · rw [if_pos hp] at hx
          rw [List.mem_singleton.mp hx]
          exact List.mem_cons_self _ _
        · rw [if_neg hp] at hx; cases hx
      · exact List.mem_cons_of_mem _ (ih (om_step st e) x hx)

/-- With nondecreasing instants, every call beyond the `≤ b` prefix happens
strictly after `b`. -/
theorem dropWhile_time_gt (b : ℚ) :
    ∀ (es : List OMEv),
      (es.map OMEv.time).Sorted (· ≤ ·) →
      ∀ e ∈ es.dropWhile (fun e => decide (OMEv.time e ≤ b)),
        b < OMEv.time e := by
  intro es
  induction es with
  | nil => intro _ e he; cases he
  | cons a tl ih =>
      intro hmono e he
      by_cases hb : OMEv.time a ≤ b
      · rw [List.dropWhile_cons_of_pos (by simpa using hb)] at he
        exact ih ((List.sorted_cons.mp hmono).2) e he
      · rw [List.dropWhile_cons_of_neg (by simpa using hb)] at he
        rcases List.mem_cons.mp he with rfl | he'
        · exact not_le.mp hb
        · have h1 := (List.sorted_cons.mp hmono).1 (OMEv.time e)
            (List.mem_map_of_mem _ he')
          have h2 := not_le.mp hb
          linarith

/-- Restricting a disciplined, time-monotone call sequence to the calls at
or before an instant keeps it disciplined: a passing validation's matching
record happens at the same instant, so the cut never separates a pair. -/
theorem disciplined_takeWhile (b : ℚ) :
    ∀ (es : List OMEv) (st : OMState),
      (es.map OMEv.time).Sorted (· ≤ ·) →
      disciplined st es = true →
      disciplined st (es.takeWhile (fun e => decide (OMEv.time e ≤ b))) =
        true := by
  intro es
  induction es with
  | nil => intro st _ _; rfl
  | cons e tl ih =>
      intro st hmono hdis
      by_cases hb : OMEv.time e ≤ b
      · rw [List.takeWhile_cons_of_pos (by simpa using hb)]
        cases e with
        | record oid o t =>
            simp only [disciplined] at hdis ⊢
            exact ih (om_step st (OMEv.record oid o t))
              ((List.sorted_cons.mp hmono).2) hdis
        | vald p o t =>
            simp only [disciplined, Bool.and_eq_true] at hdis ⊢
            obtain ⟨hd1, hd2⟩ := hdis
            refine ⟨?_, ih _ ((List.sorted_cons.mp hmono).2) hd2⟩
            by_cases hpass : (st.validate_order p o t).1.1 = true
            · rw [if_pos hpass] at hd1 ⊢
              cases tl with
              | nil => cases hd1
              | cons e2 tl2 =>
                  cases e2 with
                  | vald p2 o2 t2 => exact absurd hd1 (by simp)
                  | record oid2 o2 t2 =>
                      have ht2 : t2 = t := by simpa using hd1
                      subst ht2
                      rw [List.takeWhile_cons_of_pos (by
                        simpa [OMEv.time] using hb)]
                      simp
            · rw [if_neg hpass]
      · rw [List.takeWhile_cons_of_neg (by simpa using hb)]
        rfl

/-- C9 (corrected): the rejection half of the claim holds for any state —
`validate_order` returns `False` whenever at least `max_orders_per_minute`
recorded submission timestamps are at most 60 seconds old at the call
instant, and the stated reason is the rate-limit reason whenever the
solvency check, which the source runs first, lets the order through (an
insolvent order with a full window is rejected with the insufficient-cash
reason instead).  The window half holds only under the documented
submission protocol (`record_order` is called right after each passing
validation, at the same instant, a discipline `validate_order` itself does
not enforce): a disciplined, time-monotone call sequence starting from a
fresh manager with `max_orders_per_minute = N` passes at most `N`
validations inside any rolling window `[c, c + 60]`.  Over arbitrary
interleavings the original claim fails (see `c9_counterexample`). -/
theorem c9_amended (N : ℕ) (mov mps : Option ℚ) (st : OMState)
    (p : PortfolioState) (o : PyOrder) (t c : ℚ) (es : List OMEv)
    (hrej : st.max_orders_per_minute ≤
      st.order_timestamps.countP (fun x => decide (t - 60 ≤ x)))
    (hmono : (es.map OMEv.time).Sorted (· ≤ ·))
    (hdis : disciplined (OMState.mk0 N mov mps) es = true) :
    (((st.validate_order p o t).1).1 = false ∧
      (p.can_execute_order o = true →
        (st.validate_order p o t).1 = (false, VReason.rate_limit))) ∧
      (pass_times (OMState.mk0 N mov mps) es).countP
        (fun x => decide (c ≤ x) && decide (x ≤ c + 60)) ≤ N := by
  refine ⟨validate_order_rejects_full_window st p o t hrej, ?_⟩
  have hsplit : es = es.takeWhile (fun e => decide (OMEv.time e ≤ c + 60)) ++
      es.dropWhile (fun e => decide (OMEv.time e ≤ c + 60)) :=
    (List.takeWhile_append_dropWhile
      (fun e => decide (OMEv.time e ≤ c + 60)) es).symm
  have hpt : pass_times (OMState.mk0 N mov mps) es =
      pass_times (OMState.mk0 N mov mps)
        (es.takeWhile (fun e => decide (OMEv.time e ≤ c + 60))) ++
      pass_times (om_run (OMState.mk0 N mov mps)
          (es.takeWhile (fun e => decide (OMEv.time e ≤ c + 60))))
        (es.dropWhile (fun e => decide (OMEv.time e ≤ c + 60))) := by
    conv_lhs => rw [hsplit]
    exact pass_times_append _ _ _
  rw [hpt, List.countP_append]
  have hsuf0 : (pass_times (om_run (OMState.mk0 N mov mps)
        (es.takeWhile (fun e => decide (OMEv.time e ≤ c + 60))))
        (es.dropWhile (fun e => decide (OMEv.time e ≤ c + 60)))).countP
      (fun x => decide (c ≤ x) && decide (x ≤ c + 60)) = 0 := by
    rw [List.countP_eq_zero]
    intro a ha
    have hmem := pass_times_mem _ _ a ha
    obtain ⟨e, he, rfl⟩ := List.mem_map.mp hmem
    have hgt := dropWhile_time_gt (c + 60) es hmono e he
    simp only [Bool.and_eq_true, decide_eq_true_eq, not_and]
    intro _
    linarith
  have hpre : (pass_times (OMState.mk0 N mov mps)
        (es.takeWhile (fun e => decide (OMEv.time e ≤ c + 60)))).countP
      (fun x => decide (c ≤ x) && decide (x ≤ c + 60)) ≤
      (pass_times (OMState.mk0 N mov mps)
        (es.takeWhile (fun e => decide (OMEv.time e ≤ c + 60)))).countP
      (fun x => decide (c ≤ x)) := by
    apply List.countP_mono_left
    intro x _ hx
    simp only [Bool.and_eq_true, decide_eq_true_eq] at hx
    simpa using hx.1
  have hmain := rl_invariant c N
    (es.takeWhile (fun e => decide (OMEv.time e ≤ c + 60))).length
    (es.takeWhile (fun e => decide (OMEv.time e ≤ c + 60)))
    (OMState.mk0 N mov mps)
    (le_refl _) rfl List.sorted_nil (by simp [OMState.mk0])
    (by intro x hx; simp [OMState.mk0] at hx)
    (hmono.sublist ((List.takeWhile_sublist _).map _))
    (fun e he => by simpa using List.mem_takeWhile_imp he)
    (disciplined_takeWhile (c + 60) es (OMState.mk0 N mov mps) hmono hdis)
  have hts0 : (OMState.mk0 N mov mps).order_timestamps = [] := rfl
  rw [hts0] at hmain
  simp only [cge, List.countP_nil, Nat.min_zero, Nat.zero_add] at hmain
  omega

/-- A manager whose single-slot window is already covered by a recorded
timestamp 5, probed at instant 10. -/
def c9w_st : OMState := ⟨1, none, none, [5], [], []⟩

/-- A disciplined sequence: one validation at instant 0 immediately
followed by its record call. -/
def c9w_evs : List OMEv := [OMEv.vald c9_p c9_o 0, OMEv.record 0 c9_o 0]

theorem c9_witness :
    (c9w_st.max_orders_per_minute ≤
        c9w_st.order_timestamps.countP
          (fun x => decide ((10:ℚ) - 60 ≤ x))) ∧
      (c9w_evs.map OMEv.time).Sorted (· ≤ ·) ∧
      disciplined (OMState.mk0 1 none none) c9w_evs = true ∧
      ((((c9w_st.validate_order c9_p c9_o 10).1).1 = false ∧
          (c9_p.can_execute_order c9_o = true →
            (c9w_st.validate_order c9_p c9_o 10).1 =
              (false, VReason.rate_limit))) ∧
        (pass_times (OMState.mk0 1 none none) c9w_evs).countP
          (fun x => decide ((0:ℚ) ≤ x) && decide (x ≤ 0 + 60)) ≤ 1) := by
  have h1 : c9w_st.max_orders_per_minute ≤
      c9w_st.order_timestamps.countP
        (fun x => decide ((10:ℚ) - 60 ≤ x)) := by
    norm_num [c9w_st, List.countP_cons, List.countP_nil]
  have h2 : (c9w_evs.map OMEv.time).Sorted (· ≤ ·) := by
    norm_num [c9w_evs, OMEv.time, List.sorted_cons]
  have h3 : disciplined (OMState.mk0 1 none none) c9w_evs = true := by
    norm_num [disciplined, c9w_evs, om_step, OMState.mk0,
      OMState.validate_order, OMState.check_rate_limit, c9_p, c9_o,
      PortfolioState.can_execute_order, PortfolioState.get_holding,
      alookup, opt_truthy, OMEv.time]
  exact ⟨h1, h2, h3,
    c9_amended 1 none none c9w_st c9_p c9_o 10 0 c9w_evs h1 h2 h3⟩
